import Mathlib

/-!
Verification development for the vitastor local block-storage engine.

The file shallowly embeds, in Lean 4, the parts of the repository that the
checked claims are about:

* `src/blockstore_sync.cpp` — the early `blockstore` class sync path
  (`dequeue_sync`, `continue_sync`, `handle_sync_event`, `ack_sync`);
* `src/src/blockstore_impl.cpp` — the `blockstore_impl_t` class
  (`enqueue_op`, the submit `loop`, `is_safe_to_stop`, `replace_stable`,
  `process_list`);
* `src/src/disk_tool_meta.cpp` — `disk_tool_t::process_meta` metadata layouts.

Machine integers are modelled as `Nat`/`Int`, with an explicit `% 2^64`
where unsigned overflow matters.  I/O and ring-buffer mechanics that live in
headers outside the available sources (journal entry prefill, SQE
acquisition, `enqueue_write`) are modelled as explicit oracle parameters, so
that the control flow written in the available sources is embedded verbatim.
Memory allocation failures (`malloc`/`realloc` returning NULL) are not
modelled: allocation is assumed to succeed.
-/

/-! ## Object identifiers (`object_id`, `obj_ver_id`) -/

/-- An object id: `(inode, stripe)`, both `u64`. -/
structure Oid where
  inode : Nat
  stripe : Nat
deriving DecidableEq

/-- An `(object, version)` pair (`obj_ver_id`). -/
structure OV where
  oid : Oid
  version : Nat
deriving DecidableEq

/-- `operator<` on `object_id`: lexicographic on `(inode, stripe)`. -/
def oidLtB (a b : Oid) : Bool :=
  a.inode < b.inode || (a.inode == b.inode && a.stripe < b.stripe)

/-- Non-strict companion of `oidLtB`. -/
def oidLeB (a b : Oid) : Bool := !oidLtB b a

/-- `operator<` on `obj_ver_id`: lexicographic on `(oid, version)`. -/
def ovLtB (a b : OV) : Bool :=
  oidLtB a.oid b.oid || (a.oid == b.oid && a.version < b.version)

/-- Non-strict companion of `ovLtB`. -/
def ovLeB (a b : OV) : Bool := !ovLtB b a

/-! ## The early `blockstore` class: sync path (src/blockstore_sync.cpp)

Sync state constants are taken literally from `src/blockstore_sync.cpp`. -/

def SYNC_HAS_SMALL : Nat := 1
def SYNC_HAS_BIG : Nat := 2
def SYNC_DATA_SYNC_SENT : Nat := 3
def SYNC_DATA_SYNC_DONE : Nat := 4
def SYNC_JOURNAL_SYNC_SENT : Nat := 5
def SYNC_DONE : Nat := 6

/-- Modelled from the spec: dirty-entry state constants from the missing
`blockstore.h` header (the durability ladder D_SYNCED → D_META_SYNCED for big
writes, J_SYNCED for small writes).  Only their distinctness is used. -/
def ST_D_SYNCED : Nat := 21

/-- Modelled from the spec: see `ST_D_SYNCED`. -/
def ST_D_META_SYNCED : Nat := 22

/-- Modelled from the spec: see `ST_D_SYNCED`. -/
def ST_J_SYNCED : Nat := 35

/-- The fields of a `blockstore_operation` used by the sync path.  `id`
identifies the operation so that the order in which client callbacks fire can
be observed; firing the callback with `retval = 0` is modelled by appending
`id` to a `fired` list. -/
structure SyncOp where
  id : Nat
  sync_state : Nat
  prev_sync_count : Int
  pending_ops : Nat
  min_used_journal_sector : Nat
  max_used_journal_sector : Nat
  sync_big_writes : List OV
  sync_small_writes : List OV
deriving DecidableEq

/-- The cascade loop of `ack_sync` (`while (it != in_progress_syncs.end())`):
walks the syncs after the acknowledged one, subtracts the running `done_syncs`
count from each `prev_sync_count`, and acknowledges (removes and fires) every
sync that reaches zero predecessors in state `SYNC_DONE`.  Returns the kept
suffix, the ids fired (in firing order) and the final `done_syncs`. -/
def ack_cascade (done : Nat) : List SyncOp → List SyncOp × List Nat × Nat
  | [] => ([], [], done)
  | r :: rest =>
    let p : Int := r.prev_sync_count - (done : Int)
    if p == 0 && r.sync_state == SYNC_DONE then
      let (kept, fired, d) := ack_cascade (done + 1) rest
      (kept, r.id :: fired, d)
    else
      let (kept, fired, d) := ack_cascade done rest
      ({ r with prev_sync_count := p } :: kept, fired, d)

/-- `blockstore::ack_sync` on the in-progress list `l`, where the operation
being acknowledged sits at position `i` (its `in_progress_ptr`).  If the
operation is `SYNC_DONE` with `prev_sync_count == 0`, the cascade runs over
the suffix after `i`, then the operation itself is erased and its own callback
fires — note that in this source the operation's callback fires after the
cascade's callbacks.  Returns the new list, the fired ids in firing order, and
whether the guard held (the C++ return value `1`/`0`). -/
def ack_sync (l : List SyncOp) (i : Nat) : List SyncOp × List Nat × Bool :=
  match l.get? i with
  | none => (l, [], false)
  | some op =>
    if op.sync_state == SYNC_DONE && op.prev_sync_count == 0 then
      let (kept, fired, _) := ack_cascade 1 (l.drop (i + 1))
      (l.take i ++ kept, fired ++ [op.id], true)
    else (l, [], false)

/-- Oracle for the resources `continue_sync` acquires through code that is not
in the available sources: `BS_SUBMIT_GET_SQE` (ring slots), the journal space
check, and the journal-entry prefill of the `SYNC_DATA_SYNC_DONE` branch
(`blockstore_journal.h`), which determines `min_used_journal_sector`,
`max_used_journal_sector` and the number of sector writes submitted. -/
structure SyncOracle where
  sqe_ok : Bool
  space_ok : Bool
  jw_min : Nat
  jw_max : Nat
  jw_sectors : Nat
deriving DecidableEq

/-- `blockstore::continue_sync`.  Returns the updated op and the C++ return
value.  The final `else` branch of the source returns `0` for every state
other than `SYNC_HAS_SMALL`, `SYNC_HAS_BIG` and `SYNC_DATA_SYNC_DONE` — in
particular also for `SYNC_DONE`. -/
def continue_sync (o : SyncOracle) (op : SyncOp) : SyncOp × Nat :=
  if op.sync_state == SYNC_HAS_SMALL then
    if !o.sqe_ok then (op, 0)
    else ({ op with pending_ops := 1, sync_state := SYNC_JOURNAL_SYNC_SENT }, 1)
  else if op.sync_state == SYNC_HAS_BIG then
    if !o.sqe_ok then (op, 0)
    else ({ op with pending_ops := 1, sync_state := SYNC_DATA_SYNC_SENT }, 1)
  else if op.sync_state == SYNC_DATA_SYNC_DONE then
    if !o.space_ok then (op, 0)
    else if !o.sqe_ok then (op, 0)
    else ({ op with
            min_used_journal_sector := o.jw_min,
            max_used_journal_sector := o.jw_max,
            pending_ops := 1 + o.jw_sectors,
            sync_state := SYNC_JOURNAL_SYNC_SENT }, 1)
  else (op, 0)

/-- `blockstore::dequeue_sync` over the engine state
`(unsynced_big_writes, unsynced_small_writes, in_progress_syncs)`.
When `sync_state == 0` the unsynced lists are swapped into the op's private
lists, the initial state is chosen, and the global lists are cleared.  Then
`continue_sync` runs; on a nonzero result `ack_sync(op)` is consulted (`op` is
not yet on `in_progress_syncs`, so only its own guard can fire; the guard
needs state `SYNC_DONE`, which `continue_sync` never returns `1` from, so that
branch is dead code) and otherwise the op joins `in_progress_syncs` with
`prev_sync_count` set to the list's size.  Returns
`(unsynced_big, unsynced_small, in_progress, op, r, fired)`. -/
def dequeue_sync (o : SyncOracle) (ub us : List OV) (in_prog : List SyncOp)
    (op : SyncOp) :
    List OV × List OV × List SyncOp × SyncOp × Nat × List Nat :=
  let cap :=
    if op.sync_state == 0 then
      ([], [],
       { op with
         sync_big_writes := ub,
         sync_small_writes := us,
         sync_state :=
           if ub.length > 0 then SYNC_HAS_BIG
           else if us.length > 0 then SYNC_HAS_SMALL
           else SYNC_DONE })
    else (ub, us, op)
  let ub2 := cap.1
  let us2 := cap.2.1
  let op1 := cap.2.2
  let cs := continue_sync o op1
  let op2 := cs.1
  let r := cs.2
  if r != 0 then
    if op2.sync_state == SYNC_DONE && op2.prev_sync_count == 0 then
      (ub2, us2, in_prog, op2, r, [op2.id])
    else
      let op3 := { op2 with prev_sync_count := (in_prog.length : Int) }
      (ub2, us2, in_prog ++ [op3], op3, r, [])
  else (ub2, us2, in_prog, op2, r, [])

/-- Decrement the counter at index `i` (`journal.sector_info[i].usage_count--`). -/
def decrementAt (l : List Nat) (i : Nat) : List Nat :=
  l.set i (l.getD i 0 - 1)

/-- The journal-sector release loop of `handle_sync_event`:
`for (s = min; s != max; s = (s + 1) % sector_count) sector_info[s-1].usage_count--`.
The C++ loop has no bound, so it is embedded with fuel; the Bool result is
`false` when the fuel runs out, i.e. when `max` is unreachable from `min`
under the step `(s + 1) % count` and the C++ loop would spin forever (reading
`sector_info[-1]` once `s` reaches `0`; with `s = 0` the model decrements
index `0` instead, a difference no theorem below depends on). -/
def release_walk (fuel : Nat) (s maxu count : Nat) (usage : List Nat) :
    List Nat × Bool :=
  match fuel with
  | 0 => (usage, false)
  | f + 1 =>
    if s == maxu then (usage, true)
    else release_walk f ((s + 1) % count) maxu count (decrementAt usage (s - 1))

/-- `dirty_db[k].state = v` on an association-list model of the ordered map:
update the first binding of `k`, inserting a fresh one at the end if absent
(`std::map::operator[]` default-inserts). -/
def dbSet (db : List (OV × Nat)) (k : OV) (v : Nat) : List (OV × Nat) :=
  match db with
  | [] => [(k, v)]
  | (k2, v2) :: rest =>
    if k2 == k then (k2, v) :: rest else (k2, v2) :: dbSet rest k v

/-- Result of `handle_sync_event`: `fatal` models the thrown
`std::runtime_error` on `res < 0`, `bug` the "unexpected sync op state" throw,
`stuck` a non-terminating release loop. -/
inductive HseOut where
  | fatal : HseOut
  | bug : HseOut
  | stuck : HseOut
  | ok : List Nat → List (OV × Nat) → List SyncOp → List Nat → HseOut
deriving DecidableEq

/-- `blockstore::handle_sync_event` for the sync op at position `i` of the
in-progress list, completing one I/O with result `res`.  On the last pending
I/O: first the used journal sectors are released and the
`min_used_journal_sector..max_used_journal_sector` range is reset, then the
state transition runs (`SYNC_DATA_SYNC_SENT → SYNC_DATA_SYNC_DONE` marking big
writes `ST_D_SYNCED`; `SYNC_JOURNAL_SYNC_SENT → SYNC_DONE` marking big writes
`ST_D_META_SYNCED` and small writes `ST_J_SYNCED`), then `ack_sync` runs. -/
def handle_sync_event (count : Nat) (usage : List Nat) (dirty : List (OV × Nat))
    (syncs : List SyncOp) (i : Nat) (res : Int) : HseOut :=
  match syncs.get? i with
  | none => .bug
  | some op0 =>
    if res < 0 then .fatal
    else
      let op := { op0 with pending_ops := op0.pending_ops - 1 }
      if op.pending_ops != 0 then .ok usage dirty (syncs.set i op) []
      else
        let rel :=
          if op.min_used_journal_sector > 0 then
            let w := release_walk (count + 1) op.min_used_journal_sector
              op.max_used_journal_sector count usage
            (w.1, { op with min_used_journal_sector := 0,
                            max_used_journal_sector := 0 }, w.2)
          else (usage, op, true)
        let usage1 := rel.1
        let op1 := rel.2.1
        if !rel.2.2 then .stuck
        else if op1.sync_state == SYNC_DATA_SYNC_SENT then
          let op2 := { op1 with sync_state := SYNC_DATA_SYNC_DONE }
          let dirty1 := op2.sync_big_writes.foldl
            (fun db w => dbSet db w ST_D_SYNCED) dirty
          let a := ack_sync (syncs.set i op2) i
          .ok usage1 dirty1 a.1 a.2.1
        else if op1.sync_state == SYNC_JOURNAL_SYNC_SENT then
          let op2 := { op1 with sync_state := SYNC_DONE }
          let dirty1 := op2.sync_big_writes.foldl
            (fun db w => dbSet db w ST_D_META_SYNCED) dirty
          let dirty2 := op2.sync_small_writes.foldl
            (fun db w => dbSet db w ST_J_SYNCED) dirty1
          let a := ack_sync (syncs.set i op2) i
          .ok usage1 dirty2 a.1 a.2.1
        else .bug

/-! ## The `blockstore_impl_t` class (src/src/blockstore_impl.cpp) -/

/-- Modelled from the spec: opcode constants from the missing blockstore
header.  The spec enumerates the opcodes (READ, WRITE, WRITE_STABLE, DELETE,
SYNC, STABLE, ROLLBACK, SYNC_STAB_ALL, LIST); they are numbered consecutively
with `BS_OP_MIN`/`BS_OP_MAX` the extremes of the valid range, and
`BS_OP_SYNC_STAB_ALL` inside the range (`enqueue_op` rewrites it to
`BS_OP_SYNC`).  Only distinctness and membership in `[BS_OP_MIN, BS_OP_MAX]`
are relied upon. -/
def BS_OP_MIN : Nat := 1

/-- Modelled from the spec: see `BS_OP_MIN`. -/
def BS_OP_READ : Nat := 1

/-- Modelled from the spec: see `BS_OP_MIN`. -/
def BS_OP_WRITE : Nat := 2

/-- Modelled from the spec: see `BS_OP_MIN`. -/
def BS_OP_WRITE_STABLE : Nat := 3

/-- Modelled from the spec: see `BS_OP_MIN`. -/
def BS_OP_SYNC : Nat := 4

/-- Modelled from the spec: see `BS_OP_MIN`. -/
def BS_OP_STABLE : Nat := 5

/-- Modelled from the spec: see `BS_OP_MIN`. -/
def BS_OP_ROLLBACK : Nat := 6

/-- Modelled from the spec: see `BS_OP_MIN`. -/
def BS_OP_DELETE : Nat := 7

/-- Modelled from the spec: see `BS_OP_MIN`. -/
def BS_OP_LIST : Nat := 8

/-- Modelled from the spec: see `BS_OP_MIN`. -/
def BS_OP_SYNC_STAB_ALL : Nat := 9

/-- Modelled from the spec: see `BS_OP_MIN`. -/
def BS_OP_MAX : Nat := 9

/-- The fields of a `blockstore_op_t` that `enqueue_op` validation inspects. -/
structure ImplOp where
  opcode : Nat
  offset : Nat
  len : Nat
deriving DecidableEq

/-- The engine state visible to `enqueue_op` and `is_safe_to_stop`. -/
structure ImplSt where
  submit_queue : List ImplOp
  readonly : Bool
  flusher_active : Bool
  unsynced_big_writes : List OV
  unsynced_small_writes : List OV
  stop_sync_submitted : Bool
  block_size : Nat
  disk_alignment : Nat
deriving DecidableEq

/-- The validation condition of `blockstore_impl_t::enqueue_op` (the `if` that
fails the op with `-EINVAL`), translated literally: bad opcode range, or — for
READ/WRITE/WRITE_STABLE — `offset >= block_size`, `len > block_size - offset`
or `len % disk_alignment != 0` (note: the offset's own alignment is not
checked), or a readonly engine with an opcode other than READ/LIST. -/
def op_invalid (st : ImplSt) (op : ImplOp) : Bool :=
  op.opcode < BS_OP_MIN || op.opcode > BS_OP_MAX ||
  ((op.opcode == BS_OP_READ || op.opcode == BS_OP_WRITE ||
      op.opcode == BS_OP_WRITE_STABLE) &&
    (decide (op.offset ≥ st.block_size) ||
     decide (op.len > st.block_size - op.offset) ||
     op.len % st.disk_alignment != 0)) ||
  (st.readonly && op.opcode != BS_OP_READ && op.opcode != BS_OP_LIST)

/-- `blockstore_impl_t::enqueue_op`.  `ew` is an oracle for `enqueue_write`
(missing from the available sources): `none` means it succeeded, `some r`
means it failed after setting `op->retval = r`.  The result is the new state
and `some retval` when the callback fired immediately (op rejected), `none`
when the op was pushed onto `submit_queue`.  The `BS_OP_SYNC_STAB_ALL`
callback wrapping only changes the continuation, not the enqueued opcode
(which becomes `BS_OP_SYNC`); the continuation is outside this model. -/
def enqueue_op (ew : ImplOp → Option Int) (st : ImplSt) (op : ImplOp) :
    ImplSt × Option Int :=
  if op_invalid st op then (st, some (-22))
  else
    let op1 := if op.opcode == BS_OP_SYNC_STAB_ALL then
        { op with opcode := BS_OP_SYNC } else op
    if op1.opcode == BS_OP_WRITE || op1.opcode == BS_OP_WRITE_STABLE ||
        op1.opcode == BS_OP_DELETE then
      match ew op1 with
      | some r => (st, some r)
      | none =>
        ({ st with submit_queue := st.submit_queue ++ [op1] }, none)
    else
      ({ st with submit_queue := st.submit_queue ++ [op1] }, none)

/-- `blockstore_impl_t::is_safe_to_stop`.  Returns the C++ result and the new
engine state (which differs from the input only when the internal SYNC is
injected through `enqueue_op`). -/
def is_safe_to_stop (ew : ImplOp → Option Int) (st : ImplSt) : Bool × ImplSt :=
  if st.submit_queue.length > 0 || (!st.readonly && st.flusher_active) then
    (false, st)
  else if st.unsynced_big_writes.length > 0 ||
      st.unsynced_small_writes.length > 0 then
    if !st.readonly && !st.stop_sync_submitted then
      let e := enqueue_op ew st ⟨BS_OP_SYNC, 0, 0⟩
      (false, { e.1 with stop_sync_submitted := true })
    else (false, st)
  else (true, st)

/-! ### The submit loop (one pass of `blockstore_impl_t::loop`)

The loop walks `submit_queue` with a local `has_writes` flag
(0: no writes seen, 1: some writes submitted, 2: a write could not submit).
The per-opcode handlers (`dequeue_read`, `dequeue_write`, `dequeue_del`,
`continue_sync`, `dequeue_stable`, `dequeue_rollback`) live in files outside
the available sources, so each queued op carries, as oracle inputs, the
outcome its handler would produce: `wrSt` is the handler's return value
(0 = can't submit, 1 = in progress, 2 = completed; for `dequeue_read`, `0`
models `false`), and `failSqe` says whether a failed attempt left the op
waiting on `WAIT_SQE` (ring full), which stops the whole pass.  `wait` is the
state of the op's `wait_for` tag after `check_wait`. -/

/-- Result of `check_wait` for a queued op in this pass. -/
inductive WaitSt where
  | ready : WaitSt
  | stillSqe : WaitSt
  | stillOther : WaitSt
deriving DecidableEq

/-- A queued op together with its oracle outcomes for this pass. -/
structure QOp where
  opcode : Nat
  wait : WaitSt
  wrSt : Nat
  failSqe : Bool
  id : Nat
deriving DecidableEq

/-- WRITE / WRITE_STABLE / DELETE — the opcodes the loop treats as writes. -/
def isWriteOp (op : QOp) : Bool :=
  op.opcode == BS_OP_WRITE || op.opcode == BS_OP_WRITE_STABLE ||
  op.opcode == BS_OP_DELETE

/-- What the pass did with a reached op. -/
inductive Outcome where
  | waitSkip : Outcome
  | orderSkip : Outcome
  | syncDefer : Outcome
  | attempted : Nat → Outcome
  | noAction : Outcome
deriving DecidableEq

/-- One pass of the submit loop over the queue, carrying `has_writes`.
Returns the reached ops paired with what happened to each; ops after a break
(`WAIT_SQE`, either from `check_wait` or from a failed submission that left
the op waiting for SQEs) do not appear. -/
def loop_pass (hw : Nat) : List QOp → List (QOp × Outcome)
  | [] => []
  | op :: rest =>
    if op.wait == WaitSt.stillSqe then [(op, .waitSkip)]
    else if op.wait == WaitSt.stillOther then
      (op, .waitSkip) :: loop_pass (if isWriteOp op then 2 else hw) rest
    else
      if op.opcode == BS_OP_READ then
        if op.wrSt == 0 && op.failSqe then [(op, .attempted 0)]
        else (op, .attempted op.wrSt) :: loop_pass hw rest
      else if isWriteOp op then
        if hw == 2 then (op, .orderSkip) :: loop_pass 2 rest
        else if op.wrSt == 0 && op.failSqe then [(op, .attempted 0)]
        else (op, .attempted op.wrSt) ::
          loop_pass (if op.wrSt > 0 then 1 else 2) rest
      else if op.opcode == BS_OP_SYNC then
        if hw != 0 then (op, .syncDefer) :: loop_pass hw rest
        else if op.wrSt == 0 && op.failSqe then [(op, .attempted 0)]
        else (op, .attempted op.wrSt) :: loop_pass hw rest
      else if op.opcode == BS_OP_STABLE || op.opcode == BS_OP_ROLLBACK then
        if op.wrSt == 0 && op.failSqe then [(op, .attempted 0)]
        else (op, .attempted op.wrSt) :: loop_pass hw rest
      else if op.opcode == BS_OP_LIST then
        (op, .attempted 2) :: loop_pass hw rest
      else
        (op, .noAction) :: loop_pass hw rest

/-! ### `process_list` (src/src/blockstore_impl.cpp) -/

/-- The part of a `clean_entry` that `process_list` reads (its `location` is
not consulted there). -/
structure CEntry where
  version : Nat
deriving DecidableEq

/-- Modelled from the spec: the `IS_DELETE` / `IS_STABLE` state predicates
from the missing header, represented as the two booleans `process_list`
branches on (the spec's delete marker flag and stable/unstable split). -/
structure DEntry where
  del : Bool
  stable : Bool
deriving DecidableEq

/-- The LIST parameters carried by the op:
`list_pg = op->offset`, `pg_count = op->len`,
`pg_stripe_size = op->oid.stripe`, `min_inode = op->oid.inode`,
`max_inode = op->version`. -/
structure ListCfg where
  list_pg : Nat
  pg_count : Nat
  pg_stripe_size : Nat
  min_inode : Nat
  max_inode : Nat
deriving DecidableEq

/-- `UINT64_MAX`. -/
def U64MAX : Nat := 2 ^ 64 - 1

/-- Modelled from the spec: `MIN_BLOCK_SIZE` from the missing header (the
spec's minimum 4 KiB granularity); only the `-EINVAL` precheck uses it. -/
def MIN_BLOCK_SIZE : Nat := 4096

/-- The placement-group filter
`!pg_count || ((inode + stripe / pg_stripe_size) % pg_count) == list_pg`,
with the `u64` addition reduced mod `2^64`. -/
def pgOk (cfg : ListCfg) (o : Oid) : Bool :=
  cfg.pg_count == 0 ||
  ((o.inode + o.stripe / cfg.pg_stripe_size) % 2 ^ 64 % cfg.pg_count
    == cfg.list_pg)

/-- Whether the inode-range filter is active:
`(min_inode != 0 || max_inode != 0) && min_inode <= max_inode`. -/
def range_active (cfg : ListCfg) : Bool :=
  (cfg.min_inode != 0 || cfg.max_inode != 0) &&
  decide (cfg.min_inode ≤ cfg.max_inode)

/-- Membership in the clean-db iteration range
`lower_bound {min_inode, 0} .. upper_bound {max_inode, UINT64_MAX}`; for a
sorted map, iterating between these bounds is filtering by the interval. -/
def clean_in_range (cfg : ListCfg) (o : Oid) : Bool :=
  if range_active cfg then
    oidLeB ⟨cfg.min_inode, 0⟩ o && oidLeB o ⟨cfg.max_inode, U64MAX⟩
  else true

/-- Membership in the dirty-db iteration range
`lower_bound {{min_inode,0},0} .. upper_bound {{max_inode,UINT64_MAX},UINT64_MAX}`. -/
def dirty_in_range (cfg : ListCfg) (k : OV) : Bool :=
  if range_active cfg then
    ovLeB ⟨⟨cfg.min_inode, 0⟩, 0⟩ k && ovLeB k ⟨⟨cfg.max_inode, U64MAX⟩, U64MAX⟩
  else true

/-- The clean-db entries `process_list` iterates: the range restriction of
the sorted map followed by the in-loop placement-group test. -/
def clean_pass (cfg : ListCfg) (clean : List (Oid × CEntry)) :
    List (Oid × CEntry) :=
  (clean.filter (fun e => clean_in_range cfg e.1)).filter
    (fun e => pgOk cfg e.1)

/-- The dirty-db entries `process_list` iterates and does not skip. -/
def dirty_pass (cfg : ListCfg) (dirty : List (OV × DEntry)) :
    List (OV × DEntry) :=
  (dirty.filter (fun e => dirty_in_range cfg e.1)).filter
    (fun e => pgOk cfg e.1.oid)

/-- Default element used by out-of-range reads of the `stable` array. -/
def dummyOV : OV := ⟨⟨0, 0⟩, 0⟩

/-- `replace_stable(oid, version, search_start, search_end, list)`: binary
search over `list[s..e)` for an element with oid `oid`; if found, overwrite
its version and return true, else return false.  The C++ `while` loop is
embedded with fuel; `e - s` shrinks at every step, so fuel `e - s` always
suffices (see `replace_stable_run`). -/
def replace_stable (fuel : Nat) (oid : Oid) (v : Nat) (s e : Nat)
    (l : List OV) : List OV × Bool :=
  match fuel with
  | 0 => (l, false)
  | f + 1 =>
    if s < e then
      if oidLtB oid (l.getD (s + (e - s) / 2) dummyOV).oid then
        replace_stable f oid v s (s + (e - s) / 2) l
      else if oidLtB (l.getD (s + (e - s) / 2) dummyOV).oid oid then
        replace_stable f oid v (s + (e - s) / 2 + 1) e l
      else
        (l.set (s + (e - s) / 2)
          ⟨(l.getD (s + (e - s) / 2) dummyOV).oid, v⟩, true)
    else (l, false)

/-- `replace_stable` with enough fuel for the whole search. -/
def replace_stable_run (oid : Oid) (v : Nat) (s e : Nat) (l : List OV) :
    List OV × Bool :=
  replace_stable (e - s) oid v s e l

/-- The effect of one iteration of the dirty-db loop of `process_list` on the
`stable` array, with `c` the number of clean entries copied first
(`clean_stable_count`): deletions zero out the matching version, first in the
clean part `[0, c)`, then in the dirty-stable part `[c, length)`; stable
entries overwrite the clean version if present, else update the last element
if it has the same oid, else are appended; other (unstable) entries leave the
array alone. -/
def stable_step (c : Nat) (stable : List OV) (e : OV × DEntry) : List OV :=
  if e.2.del then
    if (replace_stable_run e.1.oid 0 0 c stable).2 then
      (replace_stable_run e.1.oid 0 0 c stable).1
    else (replace_stable_run e.1.oid 0 c stable.length stable).1
  else if e.2.stable then
    if (replace_stable_run e.1.oid e.1.version 0 c stable).2 then
      (replace_stable_run e.1.oid e.1.version 0 c stable).1
    else if stable.length > 0 &&
        (stable.getD (stable.length - 1) dummyOV).oid == e.1.oid then
      stable.set (stable.length - 1)
        ⟨(stable.getD (stable.length - 1) dummyOV).oid, e.1.version⟩
    else stable ++ [e.1]
  else stable

/-- One iteration of the dirty-db loop on the `(stable, unstable)` pair:
non-delete non-stable entries are appended to `unstable`. -/
def dirty_step (c : Nat) (st : List OV × List OV) (e : OV × DEntry) :
    List OV × List OV :=
  (stable_step c st.1 e,
   if !e.2.del && !e.2.stable then st.2 ++ [e.1] else st.2)

/-- `blockstore_impl_t::process_list` as a function of the LIST parameters
and the two in-memory maps (given as their sorted association lists).
`none` models the `-EINVAL` precheck
(`pg_count != 0 && (pg_stripe_size < MIN_BLOCK_SIZE || list_pg >= pg_count)`).
Otherwise the result is `(buf, op->version, retval)`: the clean entries in
range are copied, the dirty loop runs, zero-version stable entries are
dropped, and the unstable entries are appended after the stable ones. -/
def process_list (cfg : ListCfg) (clean : List (Oid × CEntry))
    (dirty : List (OV × DEntry)) : Option (List OV × Nat × Nat) :=
  if cfg.pg_count != 0 &&
      (decide (cfg.pg_stripe_size < MIN_BLOCK_SIZE) ||
       decide (cfg.list_pg ≥ cfg.pg_count)) then
    none
  else
    let stable0 := (clean_pass cfg clean).map
      (fun e => (⟨e.1, e.2.version⟩ : OV))
    let fin := (dirty_pass cfg dirty).foldl (dirty_step stable0.length)
      (stable0, [])
    let stable2 := fin.1.filter (fun x => x.version != 0)
    some (stable2 ++ fin.2, stable2.length, stable2.length + fin.2.length)

/-- The unstable suffix the claims describe: the non-delete, non-stable dirty
entries matching the filters, in order. -/
def unstable_spec (cfg : ListCfg) (dirty : List (OV × DEntry)) : List OV :=
  ((dirty_pass cfg dirty).filter (fun e => !e.2.del && !e.2.stable)).map
    (fun e => e.1)

/-- The oids the stable part may draw from: clean-db entries in range, and
stable non-delete dirty entries in range. -/
def stable_oid_sources (cfg : ListCfg) (clean : List (Oid × CEntry))
    (dirty : List (OV × DEntry)) : List Oid :=
  (clean_pass cfg clean).map (fun e => e.1) ++
  ((dirty_pass cfg dirty).filter (fun e => !e.2.del && e.2.stable)).map
    (fun e => e.1.oid)

/-! ## The disk tool metadata reader (src/src/disk_tool_meta.cpp) -/

/-- Modelled from the spec: `sizeof(clean_disk_entry)` from the missing
header — an object id (two u64) plus a u64 version, 24 bytes; the bitmap is a
trailing flexible array not counted by `sizeof`. -/
def CLEAN_DISK_ENTRY_SIZE : Nat := 24

/-- Modelled from the spec: the metadata superblock magic from the missing
header; only equality with itself matters. -/
def BLOCKSTORE_META_MAGIC_V1 : Nat := 0x726F747361746956

/-- Modelled from the spec: metadata format version 1. -/
def BLOCKSTORE_META_VERSION_V1 : Nat := 1

/-- Modelled from the spec: `DIRECT_IO_ALIGNMENT` from the missing header,
the 512-byte sector alignment `process_meta` requires of
`meta_block_size`. -/
def DIRECT_IO_ALIGNMENT : Nat := 512

/-- The metadata superblock (`blockstore_meta_header_v1_t`). -/
structure MetaHdr where
  zero : Nat
  magic : Nat
  version : Nat
  meta_block_size : Nat
  data_block_size : Nat
  bitmap_granularity : Nat
deriving DecidableEq

/-- The superblock test of `process_meta`:
`hdr->zero == 0 && hdr->magic == BLOCKSTORE_META_MAGIC_V1 && hdr->version == BLOCKSTORE_META_VERSION_V1`. -/
def superblock_ok (hdr : MetaHdr) : Bool :=
  hdr.zero == 0 && hdr.magic == BLOCKSTORE_META_MAGIC_V1 &&
  hdr.version == BLOCKSTORE_META_VERSION_V1

/-- `clean_entry_size` in the superblock layout:
`sizeof(clean_disk_entry) + 2 * (data_block_size / bitmap_granularity / 8)`. -/
def clean_entry_size_super (data_block_size bitmap_granularity : Nat) : Nat :=
  CLEAN_DISK_ENTRY_SIZE + 2 * (data_block_size / bitmap_granularity / 8)

/-- The per-block record loop of the superblock branch:
`for (ioff = 0; ioff <= meta_block_size - clean_entry_size; ioff += clean_entry_size)`,
counted with fuel (the loop variable strictly increases by `E ≥ 1` per step,
so `M + 1` steps always suffice). -/
def meta_entries_le (fuel : Nat) (M E ioff : Nat) : Nat :=
  match fuel with
  | 0 => 0
  | f + 1 =>
    if ioff ≤ M - E then 1 + meta_entries_le f M E (ioff + E) else 0

/-- The per-block record loop of the legacy branch:
`for (ioff = 0; ioff < meta_block_size - clean_entry_size; ioff += clean_entry_size)` —
note the strict `<`. -/
def meta_entries_lt (fuel : Nat) (M E ioff : Nat) : Nat :=
  match fuel with
  | 0 => 0
  | f + 1 =>
    if ioff < M - E then 1 + meta_entries_lt f M E (ioff + E) else 0

/-- Records read per metadata block in the superblock layout. -/
def entries_per_block_superblock (M E : Nat) : Nat := meta_entries_le (M + 1) M E 0

/-- Records read per metadata block in the legacy layout. -/
def entries_per_block_legacy (M E : Nat) : Nat := meta_entries_lt (M + 1) M E 0

/-- Positional strict sortedness of an oid list (the clean keys). -/
def oids_sorted (l : List Oid) : Prop :=
  ∀ i j, i < j → j < l.length →
    oidLtB (l.getD i ⟨0, 0⟩) (l.getD j ⟨0, 0⟩) = true

/-- The invariant of the `stable` array during the dirty-db loop of
`process_list`: the first `cOids.length` positions still carry the clean keys
in order, the appended region is strictly sorted, disjoint from the clean
keys, and bounded by every still-unprocessed dirty key (`rest`). -/
structure PLInv (cOids : List Oid) (stable : List OV)
    (rest : List (OV × DEntry)) : Prop where
  hlen : cOids.length ≤ stable.length
  hclean : ∀ i, i < cOids.length →
    (stable.getD i dummyOV).oid = cOids.getD i ⟨0, 0⟩
  happ_sorted : ∀ i j, cOids.length ≤ i → i < j → j < stable.length →
    oidLtB (stable.getD i dummyOV).oid (stable.getD j dummyOV).oid = true
  happ_new : ∀ i, cOids.length ≤ i → i < stable.length →
    ∀ j, j < cOids.length → (stable.getD i dummyOV).oid ≠ cOids.getD j ⟨0, 0⟩
  happ_le : ∀ i, cOids.length ≤ i → i < stable.length →
    ∀ y ∈ rest, oidLeB (stable.getD i dummyOV).oid y.1.oid = true

/-! ## Concrete fixtures for the sync-path claims -/

/-- Sync 0: submitted first, `SYNC_DONE` with no unacknowledged predecessor. -/
def syncA : SyncOp := ⟨0, SYNC_DONE, 0, 0, 0, 0, [], []⟩

/-- Sync 1: submitted second, still waiting for its journal fsync. -/
def syncB : SyncOp := ⟨1, SYNC_JOURNAL_SYNC_SENT, 1, 1, 0, 0, [], []⟩

/-- Sync 2: submitted third, already `SYNC_DONE` but with one predecessor. -/
def syncC : SyncOp := ⟨2, SYNC_DONE, 1, 0, 0, 0, [], []⟩

/-- Oracle granting every resource. -/
def oracleOk : SyncOracle := ⟨true, true, 0, 0, 0⟩

/-- A freshly dispatched sync operation (`sync_state == 0`). -/
def syncFresh : SyncOp := ⟨7, 0, 0, 0, 0, 0, [], []⟩

/-- A big write pending sync. -/
def bwOV : OV := ⟨⟨1, 0⟩, 3⟩

/-- A small write pending sync. -/
def swOV : OV := ⟨⟨2, 0⟩, 4⟩

/-- The state `syncFresh` reaches after capturing `[bwOV]` / `[swOV]` and
submitting the data-device fsync. -/
def syncFreshCaptured : SyncOp :=
  { syncFresh with
    sync_big_writes := [bwOV]
    sync_small_writes := [swOV]
    sync_state := SYNC_DATA_SYNC_SENT
    pending_ops := 1 }

/-- A sync in `SYNC_JOURNAL_SYNC_SENT` whose journal entries occupied sectors
0, 1 and 2 of an 8-sector journal (`min_used_journal_sector = 1 + 0`,
`max_used_journal_sector = 1 + 2`), with one predecessor still unfinished. -/
def syncJrn : SyncOp := ⟨9, SYNC_JOURNAL_SYNC_SENT, 1, 1, 1, 3, [bwOV], [swOV]⟩

/-- `syncJrn` after its last I/O completion is handled. -/
def syncJrnDone : SyncOp :=
  { syncJrn with
    pending_ops := 0
    min_used_journal_sector := 0
    max_used_journal_sector := 0
    sync_state := SYNC_DONE }

/-! ## Concrete fixtures for the `blockstore_impl_t` claims -/

/-- An `enqueue_write` oracle that always succeeds (irrelevant to the
non-write ops these fixtures enqueue). -/
def ewNone : ImplOp → Option Int := fun _ => none

/-- A writable engine with default geometry (128 KiB blocks, 512-byte
alignment), empty queue and no unsynced writes. -/
def stBase : ImplSt := ⟨[], false, false, [], [], false, 131072, 512⟩

/-- A READ whose `offset` (256) is not a multiple of `disk_alignment` (512)
while its `len` (512) is, with `offset + len` inside the block. -/
def opReadUnaligned : ImplOp := ⟨BS_OP_READ, 256, 512⟩

/-- A writable, quiescent engine with one unsynced big write. -/
def stUnsynced : ImplSt := ⟨[], false, false, [bwOV], [], false, 131072, 512⟩

/-- A queued WRITE whose submission fails (`dequeue_write` returns 0). -/
def qWriteFail : QOp := ⟨BS_OP_WRITE, WaitSt.ready, 0, false, 11⟩

/-- A queued DELETE that could complete if attempted. -/
def qDelete : QOp := ⟨BS_OP_DELETE, WaitSt.ready, 2, false, 12⟩

/-- A queued SYNC that could complete if attempted. -/
def qSync : QOp := ⟨BS_OP_SYNC, WaitSt.ready, 2, false, 13⟩

/-- LIST parameters with no placement-group filter and no inode range. -/
def cfgAll : ListCfg := ⟨0, 0, 0, 0, 0⟩

/-- Test object A. -/
def oidA : Oid := ⟨1, 1⟩

/-- Test object B (greater than A in the (inode, stripe) order). -/
def oidB : Oid := ⟨1, 2⟩

/-- Test object C (greater than B). -/
def oidC : Oid := ⟨2, 0⟩

/-- A clean db with one entry for `oidA` at version 5. -/
def cleanW : List (Oid × CEntry) := [(oidA, ⟨5⟩)]

/-- A dirty db with one unstable entry for `oidC`. -/
def dirtyW : List (OV × DEntry) := [(⟨oidC, 4⟩, ⟨false, false⟩)]

/-- A dirty db holding, for `oidA`, a delete at version 2 followed by a
stable write at version 3. -/
def dirtyDelThenStable : List (OV × DEntry) :=
  [(⟨oidA, 2⟩, ⟨true, true⟩), (⟨oidA, 3⟩, ⟨false, true⟩)]

/-- A clean db with entries for `oidA` (version 5) and `oidB` (version 6). -/
def cleanDel : List (Oid × CEntry) := [(oidA, ⟨5⟩), (oidB, ⟨6⟩)]

/-- A dirty db whose only entry is a delete of `oidB`. -/
def dirtyDel : List (OV × DEntry) := [(⟨oidB, 8⟩, ⟨true, true⟩)]

/-- A readonly engine with an active flusher and an unsynced big write. -/
def stReadonly : ImplSt := ⟨[], true, true, [bwOV], [], false, 131072, 512⟩

/-! ## Theorems -/

/-- C1.  The claim says sync acknowledgments are always delivered in
submission order.  On the embedded `ack_sync` this fails: with the in-progress
list `[syncA, syncB, syncC]` (in submission order) and `syncA` acknowledging,
the cascade fires `syncC`'s callback before `syncA`'s own callback, so the
client observes the third sync's acknowledgment before the first's.  The rest
of the claim is visible in the same evaluation: the remaining sync `syncB` had
its `prev_sync_count` decremented by the single cascade-acknowledged
predecessor (1 → 0) and was not fired (its state is not `SYNC_DONE`), and the
two fired syncs were each `SYNC_DONE` with zero remaining predecessors. -/
theorem ack_sync_fires_out_of_submission_order :
    ack_sync [syncA, syncB, syncC] 0 =
      ([{ syncB with prev_sync_count := 0 }], [2, 0], true) ∧
    [2, 0] ≠ [syncA.id, syncC.id] := by decide

/-- C2.  Dispatching a SYNC for the first time moves the whole contents of
the unsynced lists into the op and picks the initial state (`SYNC_HAS_BIG` if
any big writes, else `SYNC_HAS_SMALL`, else `SYNC_DONE`) — the first conjunct
shows the capture.  But the claim's consequence that a SYNC issued with no
intervening writes acknowledges immediately fails: with both lists empty the
op reaches `SYNC_DONE`, yet `continue_sync` returns `0` for `SYNC_DONE`
(its final `else`), so `dequeue_sync` returns `0` without ever calling
`ack_sync` and without registering the op in `in_progress_syncs` — the fired
list is empty and, since the op has no pending I/O and is on no list, no
later event can ever fire its callback. -/
theorem dequeue_sync_empty_sync_never_acknowledges :
    dequeue_sync oracleOk [bwOV] [swOV] [] syncFresh =
      ([], [], [syncFreshCaptured], syncFreshCaptured, 1, []) ∧
    dequeue_sync oracleOk [] [] [] syncFresh =
      ([], [], [], { syncFresh with sync_state := SYNC_DONE }, 0, []) := by
  constructor <;> decide

/-- C3.  When the last pending I/O of a sync in `SYNC_JOURNAL_SYNC_SENT`
completes successfully, the dirty entries do transition as claimed (big writes
to `ST_D_META_SYNCED`, small writes to `ST_J_SYNCED`) and the sector range is
reset — but the release loop
`for (s = min; s != max; s = (s+1) % sector_count) sector_info[s-1].usage_count--`
decrements only sectors `min-1 .. max-2`: with `min = 1` and `max = 3` (the
op used sectors 0, 1 and 2, since `min`/`max` are stored as `1 +` the first /
last used sector index) the usage counts become `[0,0,1,...]`, leaving the
op's last used journal sector (index 2) never decremented, contrary to the
claim that every sector in the op's used range is decremented exactly once. -/
theorem handle_sync_event_misses_last_used_sector :
    handle_sync_event 8 [1, 1, 1, 1, 1, 1, 1, 1] [(bwOV, 0), (swOV, 0)]
        [syncJrn] 0 0 =
      .ok [0, 0, 1, 1, 1, 1, 1, 1]
        [(bwOV, ST_D_META_SYNCED), (swOV, ST_J_SYNCED)] [syncJrnDone] [] ∧
    ([0, 0, 1, 1, 1, 1, 1, 1] : List Nat).getD 2 0 = 1 := by decide

/-- C4 (counterexample).  The claim requires an op whose `offset` is not a
multiple of `disk_alignment` to fail with `-EINVAL` and never reach the
submit queue.  The code checks only `len % disk_alignment`: this READ with
`offset = 256` (not 512-aligned) and aligned `len = 512` is accepted and
pushed onto the submit queue instead. -/
theorem enqueue_op_accepts_unaligned_offset :
    enqueue_op ewNone stBase opReadUnaligned =
      ({ stBase with submit_queue := [opReadUnaligned] }, none) ∧
    opReadUnaligned.offset % stBase.disk_alignment ≠ 0 := by decide

/-- C4 (amended).  For every op: if the opcode is outside
`[BS_OP_MIN, BS_OP_MAX]`, or the opcode is READ/WRITE/WRITE_STABLE and
`offset >= block_size`, or `len > block_size - offset`, or `len` is not a
multiple of `disk_alignment` (the offset's own alignment is not checked), or
the engine is readonly and the opcode is neither READ nor LIST, then the op's
callback fires with `-EINVAL` and the op is never added to the submit queue
(the engine state is returned unchanged). -/
theorem enqueue_op_rejects_invalid (ew : ImplOp → Option Int) (st : ImplSt)
    (op : ImplOp)
    (h : op.opcode < BS_OP_MIN ∨ op.opcode > BS_OP_MAX ∨
      ((op.opcode = BS_OP_READ ∨ op.opcode = BS_OP_WRITE ∨
          op.opcode = BS_OP_WRITE_STABLE) ∧
        (op.offset ≥ st.block_size ∨ op.len > st.block_size - op.offset ∨
          op.len % st.disk_alignment ≠ 0)) ∨
      (st.readonly = true ∧ op.opcode ≠ BS_OP_READ ∧ op.opcode ≠ BS_OP_LIST)) :
    enqueue_op ew st op = (st, some (-22)) := by
  have hv : op_invalid st op = true := by
    unfold op_invalid
    simp only [BS_OP_MIN, BS_OP_MAX, BS_OP_READ, BS_OP_WRITE,
      BS_OP_WRITE_STABLE, BS_OP_LIST, Bool.or_eq_true, Bool.and_eq_true,
      decide_eq_true_eq, beq_iff_eq, bne_iff_ne, ne_eq] at h ⊢
    tauto
  unfold enqueue_op
  rw [if_pos hv]

/-- C4 (witness): a WRITE with `offset ≥ block_size` on the base engine is
rejected with `-EINVAL` and the state is unchanged. -/
theorem enqueue_op_rejects_invalid_witness :
    enqueue_op ewNone stBase ⟨BS_OP_WRITE, 131072, 0⟩ = (stBase, some (-22)) :=
  enqueue_op_rejects_invalid ewNone stBase ⟨BS_OP_WRITE, 131072, 0⟩
    (Or.inr (Or.inr (Or.inl ⟨Or.inr (Or.inl rfl), Or.inl (by decide)⟩)))

/-- C6.  `is_safe_to_stop` (i) returns `true` only when the submit queue is
empty, the flusher is inactive when the engine is not readonly, and both
unsynced lists are empty; (ii) on a quiescent writable engine with unsynced
writes and `stop_sync_submitted` still false it enqueues exactly one internal
`BS_OP_SYNC`, sets `stop_sync_submitted`, and returns false; (iii) once
`stop_sync_submitted` is set the call never changes the state again (so a
second sync is never injected); (iv) once the queue and the unsynced lists
have drained, a later call returns `true`. -/
theorem is_safe_to_stop_spec (ew : ImplOp → Option Int) (st : ImplSt) :
    ((is_safe_to_stop ew st).1 = true →
      st.submit_queue = [] ∧ (st.readonly = false → st.flusher_active = false) ∧
      st.unsynced_big_writes = [] ∧ st.unsynced_small_writes = []) ∧
    (st.submit_queue = [] → st.readonly = false → st.flusher_active = false →
      st.stop_sync_submitted = false →
      (st.unsynced_big_writes ≠ [] ∨ st.unsynced_small_writes ≠ []) →
      (is_safe_to_stop ew st).1 = false ∧
      (is_safe_to_stop ew st).2.submit_queue = [⟨BS_OP_SYNC, 0, 0⟩] ∧
      (is_safe_to_stop ew st).2.stop_sync_submitted = true) ∧
    (st.stop_sync_submitted = true → (is_safe_to_stop ew st).2 = st) ∧
    (st.submit_queue = [] → (st.readonly = false → st.flusher_active = false) →
      st.unsynced_big_writes = [] → st.unsynced_small_writes = [] →
      (is_safe_to_stop ew st).1 = true) := by
  refine ⟨?_, ?_, ?_, ?_⟩
  · intro h
    unfold is_safe_to_stop at h
    split at h
    · simp at h
    · next hc1 =>
      split at h
      · next hc2 =>
        split at h <;> simp at h
      · next hc2 =>
        simp only [Bool.or_eq_true, Bool.and_eq_true, Bool.not_eq_true',
          decide_eq_true_eq, not_or, gt_iff_lt, not_lt, Nat.le_zero] at hc1 hc2
        obtain ⟨hq, hro⟩ := hc1
        obtain ⟨hub, hus⟩ := hc2
        refine ⟨List.length_eq_zero.mp hq, ?_, List.length_eq_zero.mp hub,
          List.length_eq_zero.mp hus⟩
        intro hro2
        cases hfl : st.flusher_active
        · rfl
        · exact absurd ⟨hro2, hfl⟩ hro
  · intro hq hro hfl hss hne
    have hlen : st.unsynced_big_writes.length > 0 ∨
        st.unsynced_small_writes.length > 0 := by
      rcases hne with h | h
      · exact Or.inl (List.length_pos.mpr h)
      · exact Or.inr (List.length_pos.mpr h)
    unfold is_safe_to_stop
    rw [if_neg, if_pos, if_pos]
    · simp only [enqueue_op, op_invalid, hq, hro]
      norm_num [BS_OP_SYNC, BS_OP_MIN, BS_OP_MAX, BS_OP_READ, BS_OP_WRITE,
        BS_OP_WRITE_STABLE, BS_OP_DELETE, BS_OP_LIST, BS_OP_SYNC_STAB_ALL]
    · simp [hro, hss]
    · simpa using hlen
    · simp [hq, hro, hfl]
  · intro hss
    unfold is_safe_to_stop
    split
    · rfl
    · split
      · rw [if_neg]
        simp [hss]
      · rfl
  · intro hq hfl hub hus
    unfold is_safe_to_stop
    rw [if_neg, if_neg]
    · simp [hub, hus]
    · intro hc
      simp only [Bool.or_eq_true, Bool.and_eq_true, Bool.not_eq_true',
        decide_eq_true_eq, gt_iff_lt] at hc
      rcases hc with hc | ⟨h1, h2⟩
      · rw [hq] at hc; simp at hc
      · rw [hfl h1] at h2; exact Bool.false_ne_true h2

/-- C6 (witness): on a quiescent writable engine with one unsynced big write,
the first call injects the internal SYNC and returns false. -/
theorem is_safe_to_stop_spec_witness :
    (is_safe_to_stop ewNone stUnsynced).1 = false ∧
    (is_safe_to_stop ewNone stUnsynced).2.submit_queue = [⟨BS_OP_SYNC, 0, 0⟩] ∧
    (is_safe_to_stop ewNone stUnsynced).2.stop_sync_submitted = true :=
  (is_safe_to_stop_spec ewNone stUnsynced).2.1 rfl rfl rfl rfl
    (Or.inl (by decide))

/-- C10.  On a readonly engine `is_safe_to_stop` never mutates the state:
no internal SYNC is ever enqueued and `stop_sync_submitted` is untouched, and
its result ignores the flusher entirely — it is `true` exactly when the
submit queue and both unsynced lists are empty. -/
theorem is_safe_to_stop_readonly_frame (ew : ImplOp → Option Int)
    (st : ImplSt) (h : st.readonly = true) :
    (is_safe_to_stop ew st).2 = st ∧
    (is_safe_to_stop ew st).1 =
      (st.submit_queue.isEmpty && st.unsynced_big_writes.isEmpty &&
        st.unsynced_small_writes.isEmpty) := by
  obtain ⟨q, ro, fl, ub, us, ss, bs, da⟩ := st
  simp only at h
  subst h
  unfold is_safe_to_stop
  cases q <;> cases ub <;> cases us <;> simp [List.isEmpty]

/-- C10 (witness): a readonly engine with an active flusher and an unsynced
big write is left untouched and reports not-safe. -/
theorem is_safe_to_stop_readonly_frame_witness :
    (is_safe_to_stop ewNone stReadonly).2 = stReadonly ∧
    (is_safe_to_stop ewNone stReadonly).1 = false :=
  ⟨(is_safe_to_stop_readonly_frame ewNone stReadonly rfl).1,
   (is_safe_to_stop_readonly_frame ewNone stReadonly rfl).2⟩

/-- C8.  Both metadata layouts are accepted (the superblock is recognized by
`zero == 0`, the magic and the version, and then records carry bitmaps and
have size `sizeof(clean_disk_entry) + 2*clean_entry_bitmap_size`), but the
claim that both layouts read `floor(meta_block_size / clean_entry_size)`
entries per metadata block fails on the legacy branch: its loop uses
`ioff < meta_block_size - clean_entry_size` (strict) where the superblock
branch uses `<=`, so with `meta_block_size = 1536` (a valid multiple of
`DIRECT_IO_ALIGNMENT`) and the 24-byte legacy entry size — 24 divides 1536 —
the legacy branch reads 63 records per block instead of
`floor(1536/24) = 64`, silently dropping each block's last record. -/
theorem process_meta_legacy_block_count_mismatch :
    entries_per_block_legacy 1536 CLEAN_DISK_ENTRY_SIZE = 63 ∧
    1536 / CLEAN_DISK_ENTRY_SIZE = 64 ∧
    entries_per_block_superblock 1536 CLEAN_DISK_ENTRY_SIZE = 64 ∧
    entries_per_block_superblock 4096 (clean_entry_size_super 131072 4096) =
      4096 / clean_entry_size_super 131072 4096 ∧
    clean_entry_size_super 131072 4096 = 32 ∧
    1536 % DIRECT_IO_ALIGNMENT = 0 ∧
    superblock_ok ⟨0, BLOCKSTORE_META_MAGIC_V1, 1, 4096, 131072, 4096⟩ = true ∧
    superblock_ok ⟨1, BLOCKSTORE_META_MAGIC_V1, 1, 4096, 131072, 4096⟩ = false := by
  set_option maxRecDepth 8000 in decide

/-- A READ op is neither a write op nor a SYNC. -/
theorem opcode_not_write_of_read (op : QOp) (h : (op.opcode == BS_OP_READ) = true) :
    isWriteOp op = false ∧ (op.opcode == BS_OP_SYNC) = false := by
  simp only [beq_iff_eq] at h
  simp [isWriteOp, h, BS_OP_READ, BS_OP_WRITE, BS_OP_WRITE_STABLE, BS_OP_DELETE,
    BS_OP_SYNC]

/-- Once `has_writes = 2`, no later WRITE/WRITE_STABLE/DELETE or SYNC in the
pass is ever attempted. -/
theorem loop_pass_after_fail_no_attempt : ∀ (q : List QOp) (p : QOp) (u : Outcome),
    (p, u) ∈ loop_pass 2 q →
    (isWriteOp p = true ∨ p.opcode == BS_OP_SYNC) → ∀ k, u ≠ Outcome.attempted k := by
  intro q
  induction q with
  | nil => intro p u hmem; simp [loop_pass] at hmem
  | cons op rest ih =>
    intro p u hmem hps k hk
    subst hk
    rw [loop_pass] at hmem
    split at hmem
    · simp at hmem
    · split at hmem
      · simp only [ite_self, List.mem_cons] at hmem
        rcases hmem with hpe | hmem
        · simp at hpe
        · exact ih p _ hmem hps k rfl
      · split at hmem
        · next hrd =>
          have hco := opcode_not_write_of_read op hrd
          split at hmem
          · simp only [List.mem_singleton, Prod.mk.injEq] at hmem
            obtain ⟨hp, _⟩ := hmem
            subst hp
            rcases hps with hw | hs
            · rw [hco.1] at hw; simp at hw
            · rw [hco.2] at hs; simp at hs
          · simp only [List.mem_cons, Prod.mk.injEq] at hmem
            rcases hmem with ⟨hp, _⟩ | hmem
            · subst hp
              rcases hps with hw | hs
              · rw [hco.1] at hw; simp at hw
              · rw [hco.2] at hs; simp at hs
            · exact ih p _ hmem hps k rfl
        · split at hmem
          · split at hmem
            · simp only [List.mem_cons, Prod.mk.injEq] at hmem
              rcases hmem with ⟨_, hu⟩ | hmem
              · simp at hu
              · exact ih p _ hmem hps k rfl
            · exact absurd rfl ‹¬((2 : Nat) == 2) = true›
          · split at hmem
            · next hsy =>
              split at hmem
              · simp only [List.mem_cons, Prod.mk.injEq] at hmem
                rcases hmem with ⟨_, hu⟩ | hmem
                · simp at hu
                · exact ih p _ hmem hps k rfl
              · exact absurd rfl ‹¬((2 : Nat) != 0) = true›
            · next hsy =>
              split at hmem
              · next hst =>
                simp only [Bool.or_eq_true, beq_iff_eq] at hst
                split at hmem
                · simp only [List.mem_singleton, Prod.mk.injEq] at hmem
                  obtain ⟨hp, _⟩ := hmem
                  subst hp
                  rcases hps with hw | hs
                  · simp only [isWriteOp, Bool.or_eq_true, beq_iff_eq,
                      BS_OP_WRITE, BS_OP_WRITE_STABLE, BS_OP_DELETE,
                      BS_OP_STABLE, BS_OP_ROLLBACK] at hw hst
                    omega
                  · simp only [beq_iff_eq, BS_OP_SYNC, BS_OP_STABLE,
                      BS_OP_ROLLBACK] at hs hst
                    omega
                · simp only [List.mem_cons, Prod.mk.injEq] at hmem
                  rcases hmem with ⟨hp, _⟩ | hmem
                  · subst hp
                    rcases hps with hw | hs
                    · simp only [isWriteOp, Bool.or_eq_true, beq_iff_eq,
                        BS_OP_WRITE, BS_OP_WRITE_STABLE, BS_OP_DELETE,
                        BS_OP_STABLE, BS_OP_ROLLBACK] at hw hst
                      omega
                    · simp only [beq_iff_eq, BS_OP_SYNC, BS_OP_STABLE,
                        BS_OP_ROLLBACK] at hs hst
                      omega
                  · exact ih p _ hmem hps k rfl
              · split at hmem
                · next hls =>
                  simp only [List.mem_cons, Prod.mk.injEq] at hmem
                  rcases hmem with ⟨hp, _⟩ | hmem
                  · subst hp
                    rcases hps with hw | hs
                    · simp only [isWriteOp, Bool.or_eq_true, beq_iff_eq,
                        BS_OP_WRITE, BS_OP_WRITE_STABLE, BS_OP_DELETE,
                        BS_OP_LIST] at hw hls
                      omega
                    · simp only [beq_iff_eq, BS_OP_SYNC, BS_OP_LIST] at hs hls
                      omega
                  · exact ih p _ hmem hps k rfl
                · simp only [List.mem_cons, Prod.mk.injEq] at hmem
                  rcases hmem with ⟨_, hu⟩ | hmem
                  · simp at hu
                  · exact ih p _ hmem hps k rfl

/-- Whenever `has_writes` is nonzero, no later SYNC in the pass is ever
attempted (`has_writes` never returns to 0 within a pass). -/
theorem loop_pass_sync_not_attempted : ∀ (q : List QOp) (hw : Nat), hw ≠ 0 → ∀ (p : QOp) (u : Outcome),
    (p, u) ∈ loop_pass hw q → (p.opcode == BS_OP_SYNC) = true →
    ∀ k, u ≠ Outcome.attempted k := by
  intro q
  induction q with
  | nil => intro hw _ p u hmem; simp [loop_pass] at hmem
  | cons op rest ih =>
    intro hw hhw p u hmem hsy k hk
    subst hk
    rw [loop_pass] at hmem
    split at hmem
    · simp at hmem
    · split at hmem
      · simp only [List.mem_cons, Prod.mk.injEq] at hmem
        rcases hmem with ⟨_, hu⟩ | hmem
        · simp at hu
        · refine ih _ ?_ p _ hmem hsy k rfl
          split
          · exact two_ne_zero
          · exact hhw
      · split at hmem
        · next hrd =>
          have hco := opcode_not_write_of_read op hrd
          split at hmem
          · simp only [List.mem_singleton, Prod.mk.injEq] at hmem
            obtain ⟨hp, _⟩ := hmem
            subst hp
            rw [hco.2] at hsy; simp at hsy
          · simp only [List.mem_cons, Prod.mk.injEq] at hmem
            rcases hmem with ⟨hp, _⟩ | hmem
            · subst hp; rw [hco.2] at hsy; simp at hsy
            · exact ih hw hhw p _ hmem hsy k rfl
        · next hwr =>
          split at hmem
          · next hwt =>
            split at hmem
            · simp only [List.mem_cons, Prod.mk.injEq] at hmem
              rcases hmem with ⟨_, hu⟩ | hmem
              · simp at hu
              · exact ih 2 two_ne_zero p _ hmem hsy k rfl
            · split at hmem
              · simp only [List.mem_singleton, Prod.mk.injEq] at hmem
                obtain ⟨hp, _⟩ := hmem
                subst hp
                simp only [isWriteOp, Bool.or_eq_true, beq_iff_eq, BS_OP_WRITE,
                  BS_OP_WRITE_STABLE, BS_OP_DELETE] at hwt
                simp only [beq_iff_eq, BS_OP_SYNC] at hsy
                omega
              · simp only [List.mem_cons, Prod.mk.injEq] at hmem
                rcases hmem with ⟨hp, _⟩ | hmem
                · subst hp
                  simp only [isWriteOp, Bool.or_eq_true, beq_iff_eq, BS_OP_WRITE,
                    BS_OP_WRITE_STABLE, BS_OP_DELETE] at hwt
                  simp only [beq_iff_eq, BS_OP_SYNC] at hsy
                  omega
                · refine ih _ ?_ p _ hmem hsy k rfl
                  split
                  · exact one_ne_zero
                  · exact two_ne_zero
          · split at hmem
            · split at hmem
              · simp only [List.mem_cons, Prod.mk.injEq] at hmem
                rcases hmem with ⟨_, hu⟩ | hmem
                · simp at hu
                · exact ih hw hhw p _ hmem hsy k rfl
              · next hz =>
                exfalso
                apply hz
                simp only [bne_iff_ne, ne_eq]
                exact hhw
            · split at hmem
              · next hst =>
                simp only [Bool.or_eq_true, beq_iff_eq] at hst
                split at hmem
                · simp only [List.mem_singleton, Prod.mk.injEq] at hmem
                  obtain ⟨hp, _⟩ := hmem
                  subst hp
                  simp only [Bool.or_eq_true, beq_iff_eq, BS_OP_SYNC,
                    BS_OP_STABLE, BS_OP_ROLLBACK] at hsy hst
                  omega
                · simp only [List.mem_cons, Prod.mk.injEq] at hmem
                  rcases hmem with ⟨hp, _⟩ | hmem
                  · subst hp
                    simp only [Bool.or_eq_true, beq_iff_eq, BS_OP_SYNC,
                      BS_OP_STABLE, BS_OP_ROLLBACK] at hsy hst
                    omega
                  · exact ih hw hhw p _ hmem hsy k rfl
              · split at hmem
                · next hls =>
                  simp only [List.mem_cons, Prod.mk.injEq] at hmem
                  rcases hmem with ⟨hp, _⟩ | hmem
                  · subst hp
                    simp only [beq_iff_eq, BS_OP_SYNC, BS_OP_LIST] at hsy hls
                    omega
                  · exact ih hw hhw p _ hmem hsy k rfl
                · simp only [List.mem_cons, Prod.mk.injEq] at hmem
                  rcases hmem with ⟨_, hu⟩ | hmem
                  · simp at hu
                  · exact ih hw hhw p _ hmem hsy k rfl

/-- C5.  In any single pass of the submit loop: if a WRITE/WRITE_STABLE/DELETE
at some position either fails to submit (`attempted 0`) or stays parked on a
wait condition (`waitSkip`) — both of which set `has_writes = 2` — then every
later WRITE/WRITE_STABLE/DELETE reached in that pass is skipped without being
attempted and every later SYNC reached is deferred without being advanced;
and after any write action at all (attempted with any outcome), no later SYNC
is advanced in the same pass (`has_writes ≠ 0`). -/
theorem loop_pass_write_gates (q : List QOp) :
    ∀ (hw : Nat) (t1 : List (QOp × Outcome)) (p : QOp) (o : Outcome)
      (t2 : List (QOp × Outcome)),
    loop_pass hw q = t1 ++ (p, o) :: t2 →
    isWriteOp p = true →
    ((o = Outcome.attempted 0 ∨ o = Outcome.waitSkip) →
      ∀ p2 u, (p2, u) ∈ t2 →
        (isWriteOp p2 = true ∨ (p2.opcode == BS_OP_SYNC) = true) →
        ∀ k, u ≠ Outcome.attempted k) ∧
    ((∃ k0, o = Outcome.attempted k0) →
      ∀ p2 u, (p2, u) ∈ t2 → (p2.opcode == BS_OP_SYNC) = true →
        ∀ k, u ≠ Outcome.attempted k) := by
  induction q with
  | nil =>
    intro hw t1 p o t2 heq
    rw [loop_pass] at heq
    exact absurd heq (by simp)
  | cons op rest ih =>
    intro hw t1 p o t2 heq hwrite
    rw [loop_pass] at heq
    split at heq
    · -- break on WAIT_SQE: singleton
      cases t1 with
      | nil =>
        simp only [List.nil_append, List.cons.injEq, Prod.mk.injEq] at heq
        obtain ⟨⟨hp, ho⟩, ht2⟩ := heq
        subst ht2
        exact ⟨fun _ p2 u hm => absurd hm (by simp),
               fun _ p2 u hm => absurd hm (by simp)⟩
      | cons hd tl =>
        simp only [List.cons_append, List.cons.injEq] at heq
        exact absurd heq.2 (by simp)
    · split at heq
      · -- stillOther
        cases t1 with
        | nil =>
          simp only [List.nil_append, List.cons.injEq, Prod.mk.injEq] at heq
          obtain ⟨⟨hp, ho⟩, ht2⟩ := heq
          subst hp
          have ht2b : loop_pass 2 rest = t2 := by simpa [hwrite] using ht2
          constructor
          · intro _ p2 u hm hps k
            rw [← ht2b] at hm
            exact loop_pass_after_fail_no_attempt rest p2 u hm hps k
          · intro hex
            rcases hex with ⟨k0, hk0⟩
            rw [← ho] at hk0
            simp at hk0
        | cons hd tl =>
          simp only [List.cons_append, List.cons.injEq] at heq
          exact ih _ tl p o t2 heq.2 hwrite
      · split at heq
        · -- READ branch
          next hrd =>
          have hco := opcode_not_write_of_read op hrd
          split at heq
          · cases t1 with
            | nil =>
              simp only [List.nil_append, List.cons.injEq, Prod.mk.injEq] at heq
              obtain ⟨⟨hp, _⟩, _⟩ := heq
              subst hp
              rw [hco.1] at hwrite
              simp at hwrite
            | cons hd tl =>
              simp only [List.cons_append, List.cons.injEq] at heq
              exact absurd heq.2 (by simp)
          · cases t1 with
            | nil =>
              simp only [List.nil_append, List.cons.injEq, Prod.mk.injEq] at heq
              obtain ⟨⟨hp, _⟩, _⟩ := heq
              subst hp
              rw [hco.1] at hwrite
              simp at hwrite
            | cons hd tl =>
              simp only [List.cons_append, List.cons.injEq] at heq
              exact ih _ tl p o t2 heq.2 hwrite
        · split at heq
          · -- write branch
            next hwt =>
            split at heq
            · -- hw == 2, orderSkip
              cases t1 with
              | nil =>
                simp only [List.nil_append, List.cons.injEq, Prod.mk.injEq] at heq
                obtain ⟨⟨hp, ho⟩, ht2⟩ := heq
                constructor
                · intro hor
                  rw [← ho] at hor
                  simp at hor
                · intro hex
                  rcases hex with ⟨k0, hk0⟩
                  rw [← ho] at hk0
                  simp at hk0
              | cons hd tl =>
                simp only [List.cons_append, List.cons.injEq] at heq
                exact ih _ tl p o t2 heq.2 hwrite
            · split at heq
              · -- failed write, break: singleton
                cases t1 with
                | nil =>
                  simp only [List.nil_append, List.cons.injEq, Prod.mk.injEq] at heq
                  obtain ⟨⟨hp, ho⟩, ht2⟩ := heq
                  subst ht2
                  exact ⟨fun _ p2 u hm => absurd hm (by simp),
                         fun _ p2 u hm => absurd hm (by simp)⟩
                | cons hd tl =>
                  simp only [List.cons_append, List.cons.injEq] at heq
                  exact absurd heq.2 (by simp)
              · -- attempted, continue
                cases t1 with
                | nil =>
                  simp only [List.nil_append, List.cons.injEq, Prod.mk.injEq] at heq
                  obtain ⟨⟨hp, ho⟩, ht2⟩ := heq
                  constructor
                  · intro hor p2 u hm hps k
                    rw [← ht2] at hm
                    rcases hor with h0 | h0
                    · rw [← ho] at h0
                      simp only [Outcome.attempted.injEq] at h0
                      have hz : ¬ op.wrSt > 0 := by omega
                      rw [if_neg hz] at hm
                      exact loop_pass_after_fail_no_attempt rest p2 u hm hps k
                    · rw [← ho] at h0
                      simp at h0
                  · intro _ p2 u hm hps k
                    rw [← ht2] at hm
                    refine loop_pass_sync_not_attempted rest _ ?_ p2 u hm hps k
                    split
                    · exact one_ne_zero
                    · exact two_ne_zero
                | cons hd tl =>
                  simp only [List.cons_append, List.cons.injEq] at heq
                  exact ih _ tl p o t2 heq.2 hwrite
          · -- not a write op
            next hnw =>
            split at heq
            · split at heq
              · -- syncDefer
                cases t1 with
                | nil =>
                  simp only [List.nil_append, List.cons.injEq, Prod.mk.injEq] at heq
                  obtain ⟨⟨hp, _⟩, _⟩ := heq
                  subst hp
                  exact absurd hwrite (by simpa using hnw)
                | cons hd tl =>
                  simp only [List.cons_append, List.cons.injEq] at heq
                  exact ih _ tl p o t2 heq.2 hwrite
              · split at heq
                · cases t1 with
                  | nil =>
                    simp only [List.nil_append, List.cons.injEq, Prod.mk.injEq] at heq
                    obtain ⟨⟨hp, _⟩, _⟩ := heq
                    subst hp
                    exact absurd hwrite (by simpa using hnw)
                  | cons hd tl =>
                    simp only [List.cons_append, List.cons.injEq] at heq
                    exact absurd heq.2 (by simp)
                · cases t1 with
                  | nil =>
                    simp only [List.nil_append, List.cons.injEq, Prod.mk.injEq] at heq
                    obtain ⟨⟨hp, _⟩, _⟩ := heq
                    subst hp
                    exact absurd hwrite (by simpa using hnw)
                  | cons hd tl =>
                    simp only [List.cons_append, List.cons.injEq] at heq
                    exact ih _ tl p o t2 heq.2 hwrite
            · split at heq
              · split at heq
                · cases t1 with
                  | nil =>
                    simp only [List.nil_append, List.cons.injEq, Prod.mk.injEq] at heq
                    obtain ⟨⟨hp, _⟩, _⟩ := heq
                    subst hp
                    exact absurd hwrite (by simpa using hnw)
                  | cons hd tl =>
                    simp only [List.cons_append, List.cons.injEq] at heq
                    exact absurd heq.2 (by simp)
                · cases t1 with
                  | nil =>
                    simp only [List.nil_append, List.cons.injEq, Prod.mk.injEq] at heq
                    obtain ⟨⟨hp, _⟩, _⟩ := heq
                    subst hp
                    exact absurd hwrite (by simpa using hnw)
                  | cons hd tl =>
                    simp only [List.cons_append, List.cons.injEq] at heq
                    exact ih _ tl p o t2 heq.2 hwrite
              · split at heq
                · cases t1 with
                  | nil =>
                    simp only [List.nil_append, List.cons.injEq, Prod.mk.injEq] at heq
                    obtain ⟨⟨hp, _⟩, _⟩ := heq
                    subst hp
                    exact absurd hwrite (by simpa using hnw)
                  | cons hd tl =>
                    simp only [List.cons_append, List.cons.injEq] at heq
                    exact ih _ tl p o t2 heq.2 hwrite
                · cases t1 with
                  | nil =>
                    simp only [List.nil_append, List.cons.injEq, Prod.mk.injEq] at heq
                    obtain ⟨⟨hp, _⟩, _⟩ := heq
                    subst hp
                    exact absurd hwrite (by simpa using hnw)
                  | cons hd tl =>
                    simp only [List.cons_append, List.cons.injEq] at heq
                    exact ih _ tl p o t2 heq.2 hwrite

/-- C5 (witness): in the pass over `[qWriteFail, qDelete, qSync]` starting
with `has_writes = 0`, the failed WRITE gates the later DELETE (skipped) and
the later SYNC (deferred). -/
theorem loop_pass_write_gates_witness :
    Outcome.orderSkip ≠ Outcome.attempted 1 ∧
    Outcome.syncDefer ≠ Outcome.attempted 1 := by
  have h := loop_pass_write_gates [qWriteFail, qDelete, qSync] 0 [] qWriteFail
    (Outcome.attempted 0)
    [(qDelete, Outcome.orderSkip), (qSync, Outcome.syncDefer)]
    (by decide) (by decide)
  constructor
  · exact h.1 (Or.inl rfl) qDelete Outcome.orderSkip (by decide)
      (Or.inl (by decide)) 1
  · exact h.2 ⟨0, rfl⟩ qSync Outcome.syncDefer (by decide) (by decide) 1

theorem getD_set_self {α : Type} : ∀ (l : List α) (i : Nat) (a d : α),
    i < l.length → (l.set i a).getD i d = a := by
  intro l
  induction l with
  | nil => intro i a d h; simp at h
  | cons hd tl ih =>
    intro i a d h
    cases i with
    | zero => rfl
    | succ j => exact ih j a d (by simpa using h)

theorem getD_set_ne {α : Type} : ∀ (l : List α) (i j : Nat) (a d : α),
    j ≠ i → (l.set i a).getD j d = l.getD j d := by
  intro l
  induction l with
  | nil => intro i j a d _; simp [List.set]
  | cons hd tl ih =>
    intro i j a d h
    cases i with
    | zero =>
      cases j with
      | zero => exact absurd rfl h
      | succ j2 => rfl
    | succ i2 =>
      cases j with
      | zero => rfl
      | succ j2 => exact ih i2 j2 a d (fun hc => h (by rw [hc]))

theorem set_of_le_length {α : Type} : ∀ (l : List α) (i : Nat) (a : α),
    l.length ≤ i → l.set i a = l := by
  intro l
  induction l with
  | nil => intro i a _; rfl
  | cons hd tl ih =>
    intro i a h
    cases i with
    | zero => simp at h
    | succ j => simp only [List.set]; rw [ih j a (by simpa using h)]

theorem getD_mem {α : Type} : ∀ (l : List α) (i : Nat) (d : α),
    i < l.length → l.getD i d ∈ l := by
  intro l
  induction l with
  | nil => intro i d h; simp at h
  | cons hd tl ih =>
    intro i d h
    cases i with
    | zero => exact List.mem_cons_self hd tl
    | succ j => exact List.mem_cons_of_mem hd (ih j d (by simpa using h))

theorem mem_iff_getD {α : Type} : ∀ (l : List α) (x d : α),
    x ∈ l ↔ ∃ i, i < l.length ∧ l.getD i d = x := by
  intro l
  induction l with
  | nil => intro x d; simp
  | cons hd tl ih =>
    intro x d
    constructor
    · intro hx
      rcases List.mem_cons.mp hx with h | h
      · exact ⟨0, by simp, h.symm⟩
      · rcases (ih x d).mp h with ⟨i, hi, he⟩
        exact ⟨i + 1, by simpa using hi, he⟩
    · rintro ⟨i, hi, he⟩
      cases i with
      | zero => rw [← he]; exact List.mem_cons_self hd tl
      | succ j =>
        exact List.mem_cons_of_mem hd
          ((ih x d).mpr ⟨j, by simpa using hi, he⟩)

theorem mem_of_mem_set {α : Type} : ∀ (l : List α) (i : Nat) (a x : α),
    x ∈ l.set i a → x = a ∨ x ∈ l := by
  intro l
  induction l with
  | nil => intro i a x h; simp [List.set] at h
  | cons hd tl ih =>
    intro i a x h
    cases i with
    | zero =>
      rcases List.mem_cons.mp h with h | h
      · exact Or.inl h
      · exact Or.inr (List.mem_cons_of_mem hd h)
    | succ j =>
      rcases List.mem_cons.mp h with h | h
      · exact Or.inr (h ▸ List.mem_cons_self hd tl)
      · rcases ih j a x h with h | h
        · exact Or.inl h
        · exact Or.inr (List.mem_cons_of_mem hd h)

theorem getD_append_left {α : Type} : ∀ (l1 l2 : List α) (i : Nat) (d : α),
    i < l1.length → (l1 ++ l2).getD i d = l1.getD i d := by
  intro l1
  induction l1 with
  | nil => intro l2 i d h; simp at h
  | cons hd tl ih =>
    intro l2 i d h
    cases i with
    | zero => rfl
    | succ j => exact ih l2 j d (by simpa using h)

theorem getD_append_self {α : Type} : ∀ (l1 : List α) (a d : α),
    (l1 ++ [a]).getD l1.length d = a := by
  intro l1
  induction l1 with
  | nil => intro a d; rfl
  | cons hd tl ih => intro a d; exact ih a d

theorem getD_map_ce : ∀ (l : List (Oid × CEntry)) (i : Nat),
    i < l.length →
    ((l.map (fun e => (⟨e.1, e.2.version⟩ : OV))).getD i dummyOV) =
      ⟨(l.getD i (⟨0, 0⟩, ⟨0⟩)).1, (l.getD i (⟨0, 0⟩, ⟨0⟩)).2.version⟩ := by
  intro l
  induction l with
  | nil => intro i h; simp at h
  | cons hd tl ih =>
    intro i h
    cases i with
    | zero => rfl
    | succ j => exact ih j (by simpa using h)

theorem oidLtB_iff (a b : Oid) : oidLtB a b = true ↔
    (a.inode < b.inode ∨ (a.inode = b.inode ∧ a.stripe < b.stripe)) := by
  simp [oidLtB]

theorem oidLtB_irrefl (a : Oid) : oidLtB a a = false := by
  simp [oidLtB]

theorem oidLtB_asymm (a b : Oid) (h : oidLtB a b = true) :
    oidLtB b a = false := by
  rw [oidLtB_iff] at h
  cases hb : oidLtB b a
  · rfl
  · rw [oidLtB_iff] at hb
    omega

theorem oid_eq_of_not_lt (a b : Oid) (h1 : oidLtB a b = false)
    (h2 : oidLtB b a = false) : a = b := by
  have h1b : ¬ (a.inode < b.inode ∨ (a.inode = b.inode ∧ a.stripe < b.stripe)) := by
    rw [← oidLtB_iff, h1]; simp
  have h2b : ¬ (b.inode < a.inode ∨ (b.inode = a.inode ∧ b.stripe < a.stripe)) := by
    rw [← oidLtB_iff, h2]; simp
  cases a with
  | mk ai as =>
    cases b with
    | mk bi bs =>
      simp only at h1b h2b
      simp only [Oid.mk.injEq]
      omega

theorem ovLtB_oid (a b : OV) (h : ovLtB a b = true) :
    oidLtB a.oid b.oid = true ∨ a.oid = b.oid := by
  simp only [ovLtB, Bool.or_eq_true, Bool.and_eq_true, beq_iff_eq] at h
  rcases h with h | ⟨h, _⟩
  · exact Or.inl h
  · exact Or.inr h

theorem oidLeB_of_ovLtB (a b : OV) (h : ovLtB a b = true) :
    oidLeB a.oid b.oid = true := by
  simp only [oidLeB, Bool.not_eq_true']
  rcases ovLtB_oid a b h with h | h
  · exact oidLtB_asymm _ _ h
  · rw [h]; exact oidLtB_irrefl _

theorem replace_stable_length : ∀ (f : Nat) (oid : Oid) (v s e : Nat)
    (l : List OV), ((replace_stable f oid v s e l).1).length = l.length := by
  intro f
  induction f with
  | zero => intro oid v s e l; rfl
  | succ f ih =>
    intro oid v s e l
    rw [replace_stable]
    split
    · split
      · exact ih oid v s _ l
      · split
        · exact ih oid v _ e l
        · simp
    · rfl

theorem replace_stable_oids : ∀ (f : Nat) (oid : Oid) (v s e : Nat)
    (l : List OV) (i : Nat),
    (((replace_stable f oid v s e l).1).getD i dummyOV).oid =
      (l.getD i dummyOV).oid := by
  intro f
  induction f with
  | zero => intro oid v s e l i; rfl
  | succ f ih =>
    intro oid v s e l i
    rw [replace_stable]
    split
    · split
      · exact ih oid v s _ l i
      · split
        · exact ih oid v _ e l i
        · by_cases hp : s + (e - s) / 2 < l.length
          · by_cases hi : i = s + (e - s) / 2
            · subst hi
              rw [getD_set_self _ _ _ _ hp]
            · rw [getD_set_ne _ _ _ _ _ hi]
          · rw [set_of_le_length _ _ _ (by omega)]
    · rfl

theorem replace_stable_mem : ∀ (f : Nat) (oid : Oid) (v s e : Nat)
    (l : List OV) (x : OV), x ∈ (replace_stable f oid v s e l).1 →
    x ∈ l ∨ ∃ y ∈ l, x = ⟨y.oid, v⟩ := by
  intro f
  induction f with
  | zero => intro oid v s e l x h; exact Or.inl h
  | succ f ih =>
    intro oid v s e l x h
    rw [replace_stable] at h
    split at h
    · split at h
      · exact ih oid v s _ l x h
      · split at h
        · exact ih oid v _ e l x h
        · simp only at h
          by_cases hp : s + (e - s) / 2 < l.length
          · rcases mem_of_mem_set _ _ _ _ h with h | h
            · exact Or.inr ⟨l.getD (s + (e - s) / 2) dummyOV,
                getD_mem _ _ _ hp, h⟩
            · exact Or.inl h
          · rw [set_of_le_length _ _ _ (by omega)] at h
            exact Or.inl h
    · exact Or.inl h

theorem replace_stable_not_found : ∀ (f : Nat) (oid : Oid) (v s e : Nat)
    (l : List OV),
    (∀ i, s ≤ i → i < e → (l.getD i dummyOV).oid ≠ oid) →
    replace_stable f oid v s e l = (l, false) := by
  intro f
  induction f with
  | zero => intro oid v s e l _; rfl
  | succ f ih =>
    intro oid v s e l hno
    rw [replace_stable]
    split
    · next hse =>
      have hpos1 : s ≤ s + (e - s) / 2 := by omega
      have hpos2 : s + (e - s) / 2 < e := by omega
      split
      · exact ih oid v s _ l (fun i h1 h2 => hno i h1 (by omega))
      · split
        · exact ih oid v _ e l (fun i h1 h2 => hno i (by omega) h2)
        · next hlt1 hlt2 =>
          exfalso
          exact hno _ hpos1 hpos2
            (oid_eq_of_not_lt _ _ (eq_false_of_ne_true hlt2)
              (eq_false_of_ne_true hlt1))
    · rfl

theorem replace_stable_found : ∀ (f : Nat) (oid : Oid) (v s e : Nat)
    (l : List OV), e - s ≤ f →
    (∀ i j, s ≤ i → i < j → j < e →
      oidLtB (l.getD i dummyOV).oid (l.getD j dummyOV).oid = true) →
    ∀ i0, s ≤ i0 → i0 < e → (l.getD i0 dummyOV).oid = oid →
    replace_stable f oid v s e l = (l.set i0 ⟨oid, v⟩, true) := by
  intro f
  induction f with
  | zero =>
    intro oid v s e l hf _ i0 h1 h2 _
    omega
  | succ f ih =>
    intro oid v s e l hf hsort i0 h1 h2 hoid
    have hse : s < e := by omega
    have hpos1 : s ≤ s + (e - s) / 2 := by omega
    have hpos2 : s + (e - s) / 2 < e := by omega
    rw [replace_stable]
    rw [if_pos hse]
    split
    · next hlt =>
      -- oid < element at pos, so i0 < pos
      have hi0 : i0 < s + (e - s) / 2 := by
        by_contra hge
        push_neg at hge
        rcases Nat.lt_or_ge (s + (e - s) / 2) i0 with hcase | hcase
        · have := hsort _ _ hpos1 hcase h2
          rw [hoid] at this
          rw [oidLtB_asymm _ _ this] at hlt
          exact Bool.false_ne_true hlt
        · have heq : i0 = s + (e - s) / 2 := by omega
          rw [heq] at hoid
          rw [hoid] at hlt
          rw [oidLtB_irrefl] at hlt
          exact Bool.false_ne_true hlt
      exact ih oid v s _ l (by omega)
        (fun i j a b c => hsort i j a b (by omega)) i0 h1 hi0 hoid
    · split
      · next hlt1 hlt2 =>
        -- element at pos < oid, so pos < i0
        have hi0 : s + (e - s) / 2 < i0 := by
          by_contra hge
          push_neg at hge
          rcases Nat.lt_or_ge i0 (s + (e - s) / 2) with hcase | hcase
          · have := hsort _ _ h1 hcase hpos2
            rw [hoid] at this
            rw [oidLtB_asymm _ _ this] at hlt2
            exact Bool.false_ne_true hlt2
          · have heq : i0 = s + (e - s) / 2 := by omega
            rw [heq] at hoid
            rw [hoid] at hlt2
            rw [oidLtB_irrefl] at hlt2
            exact Bool.false_ne_true hlt2
        exact ih oid v _ e l (by omega)
          (fun i j a b c => hsort i j (by omega) b c) i0 (by omega) h2 hoid
      · next hlt1 hlt2 =>
        have hxeq : (l.getD (s + (e - s) / 2) dummyOV).oid = oid :=
          oid_eq_of_not_lt _ _ (eq_false_of_ne_true hlt2)
            (eq_false_of_ne_true hlt1)
        have hpi : s + (e - s) / 2 = i0 := by
          by_contra hne
          rcases Nat.lt_or_ge (s + (e - s) / 2) i0 with hcase | hcase
          · have := hsort _ _ hpos1 hcase h2
            rw [hxeq, hoid, oidLtB_irrefl] at this
            exact Bool.false_ne_true this
          · have hcase2 : i0 < s + (e - s) / 2 := by omega
            have := hsort _ _ h1 hcase2 hpos2
            rw [hxeq, hoid, oidLtB_irrefl] at this
            exact Bool.false_ne_true this
        rw [hpi] at hxeq ⊢
        rw [hxeq]

theorem foldl_dirty_fst (c : Nat) : ∀ (l : List (OV × DEntry))
    (st : List OV × List OV),
    (l.foldl (dirty_step c) st).1 = l.foldl (stable_step c) st.1 := by
  intro l
  induction l with
  | nil => intro st; rfl
  | cons e rest ih => intro st; exact ih (dirty_step c st e)

theorem foldl_dirty_snd (c : Nat) : ∀ (l : List (OV × DEntry))
    (st : List OV × List OV),
    (l.foldl (dirty_step c) st).2 =
      st.2 ++ (l.filter (fun e => !e.2.del && !e.2.stable)).map (fun e => e.1) := by
  intro l
  induction l with
  | nil => intro st; simp
  | cons e rest ih =>
    intro st
    rw [List.foldl_cons, ih]
    by_cases hd : (!e.2.del && !e.2.stable) = true
    · rw [List.filter_cons, if_pos hd]
      simp [dirty_step, hd]
    · rw [List.filter_cons, if_neg hd]
      simp only [dirty_step]
      rw [eq_false_of_ne_true hd]
      simp

theorem stable_step_pres (c : Nat) (stable : List OV) (e : OV × DEntry)
    (P : Oid → Prop) (hP : ∀ x ∈ stable, P x.oid)
    (hE : e.2.del = false → e.2.stable = true → P e.1.oid) :
    ∀ x ∈ stable_step c stable e, P x.oid := by
  intro x hx
  unfold stable_step at hx
  split at hx
  · split at hx
    · rcases replace_stable_mem _ _ _ _ _ _ _ hx with h | ⟨y, hy, hxy⟩
      · exact hP x h
      · rw [hxy]; exact hP y hy
    · rcases replace_stable_mem _ _ _ _ _ _ _ hx with h | ⟨y, hy, hxy⟩
      · exact hP x h
      · rw [hxy]; exact hP y hy
  · split at hx
    · next hstab =>
      split at hx
      · rcases replace_stable_mem _ _ _ _ _ _ _ hx with h | ⟨y, hy, hxy⟩
        · exact hP x h
        · rw [hxy]; exact hP y hy
      · split at hx
        · next hguard =>
          simp only [Bool.and_eq_true, decide_eq_true_eq] at hguard
          rcases mem_of_mem_set _ _ _ _ hx with h | h
          · rw [h]
            exact hP (stable.getD (stable.length - 1) dummyOV)
              (getD_mem stable (stable.length - 1) dummyOV (by omega))
          · exact hP x h
        · rcases List.mem_append.mp hx with h | h
          · exact hP x h
          · rw [List.mem_singleton.mp h]
            exact hE (eq_false_of_ne_true (by assumption)) hstab
    · exact hP x hx

theorem stable_fold_pres (c : Nat) (P : Oid → Prop) :
    ∀ (l : List (OV × DEntry)) (stable : List OV),
    (∀ e ∈ l, e.2.del = false → e.2.stable = true → P e.1.oid) →
    (∀ x ∈ stable, P x.oid) →
    ∀ x ∈ l.foldl (stable_step c) stable, P x.oid := by
  intro l
  induction l with
  | nil => intro stable _ hP; exact hP
  | cons e rest ih =>
    intro stable hl hP
    refine ih (stable_step c stable e) (fun y hy => hl y (List.mem_cons_of_mem e hy)) ?_
    exact stable_step_pres c stable e P hP (hl e (List.mem_cons_self e rest))

theorem loop_pass_list_sync : ∀ (q : List QOp) (hw : Nat) (p : QOp)
    (u : Outcome), (p, u) ∈ loop_pass hw q →
    (p.opcode == BS_OP_LIST) = true → p.wait = WaitSt.ready →
    u = Outcome.attempted 2 := by
  intro q
  induction q with
  | nil => intro hw p u hmem; simp [loop_pass] at hmem
  | cons op rest ih =>
    intro hw p u hmem hls hrdy
    rw [loop_pass] at hmem
    split at hmem
    · next hsqe =>
      simp only [List.mem_singleton, Prod.mk.injEq] at hmem
      obtain ⟨hp, _⟩ := hmem
      subst hp
      rw [hrdy] at hsqe
      simp at hsqe
    · split at hmem
      · next hoth =>
        simp only [List.mem_cons, Prod.mk.injEq] at hmem
        rcases hmem with ⟨hp, _⟩ | hmem
        · subst hp
          rw [hrdy] at hoth
          simp at hoth
        · exact ih _ p u hmem hls hrdy
      · split at hmem
        · next hrd =>
          split at hmem
          · simp only [List.mem_singleton, Prod.mk.injEq] at hmem
            obtain ⟨hp, _⟩ := hmem
            subst hp
            simp only [beq_iff_eq, BS_OP_READ, BS_OP_LIST] at hrd hls
            omega
          · simp only [List.mem_cons, Prod.mk.injEq] at hmem
            rcases hmem with ⟨hp, _⟩ | hmem
            · subst hp
              simp only [beq_iff_eq, BS_OP_READ, BS_OP_LIST] at hrd hls
              omega
            · exact ih _ p u hmem hls hrdy
        · split at hmem
          · next hwt =>
            split at hmem
            · simp only [List.mem_cons, Prod.mk.injEq] at hmem
              rcases hmem with ⟨hp, _⟩ | hmem
              · subst hp
                simp only [isWriteOp, Bool.or_eq_true, beq_iff_eq, BS_OP_WRITE,
                  BS_OP_WRITE_STABLE, BS_OP_DELETE] at hwt
                simp only [beq_iff_eq, BS_OP_LIST] at hls
                omega
              · exact ih _ p u hmem hls hrdy
            · split at hmem
              · simp only [List.mem_singleton, Prod.mk.injEq] at hmem
                obtain ⟨hp, _⟩ := hmem
                subst hp
                simp only [isWriteOp, Bool.or_eq_true, beq_iff_eq, BS_OP_WRITE,
                  BS_OP_WRITE_STABLE, BS_OP_DELETE] at hwt
                simp only [beq_iff_eq, BS_OP_LIST] at hls
                omega
              · simp only [List.mem_cons, Prod.mk.injEq] at hmem
                rcases hmem with ⟨hp, _⟩ | hmem
                · subst hp
                  simp only [isWriteOp, Bool.or_eq_true, beq_iff_eq, BS_OP_WRITE,
                    BS_OP_WRITE_STABLE, BS_OP_DELETE] at hwt
                  simp only [beq_iff_eq, BS_OP_LIST] at hls
                  omega
                · exact ih _ p u hmem hls hrdy
          · split at hmem
            · next hsy =>
              split at hmem
              · simp only [List.mem_cons, Prod.mk.injEq] at hmem
                rcases hmem with ⟨hp, _⟩ | hmem
                · subst hp
                  simp only [beq_iff_eq, BS_OP_SYNC, BS_OP_LIST] at hsy hls
                  omega
                · exact ih _ p u hmem hls hrdy
              · split at hmem
                · simp only [List.mem_singleton, Prod.mk.injEq] at hmem
                  obtain ⟨hp, _⟩ := hmem
                  subst hp
                  simp only [beq_iff_eq, BS_OP_SYNC, BS_OP_LIST] at hsy hls
                  omega
                · simp only [List.mem_cons, Prod.mk.injEq] at hmem
                  rcases hmem with ⟨hp, _⟩ | hmem
                  · subst hp
                    simp only [beq_iff_eq, BS_OP_SYNC, BS_OP_LIST] at hsy hls
                    omega
                  · exact ih _ p u hmem hls hrdy
            · split at hmem
              · next hst =>
                split at hmem
                · simp only [List.mem_singleton, Prod.mk.injEq] at hmem
                  obtain ⟨hp, _⟩ := hmem
                  subst hp
                  simp only [Bool.or_eq_true, beq_iff_eq, BS_OP_STABLE,
                    BS_OP_ROLLBACK, BS_OP_LIST] at hst hls
                  omega
                · simp only [List.mem_cons, Prod.mk.injEq] at hmem
                  rcases hmem with ⟨hp, _⟩ | hmem
                  · subst hp
                    simp only [Bool.or_eq_true, beq_iff_eq, BS_OP_STABLE,
                      BS_OP_ROLLBACK, BS_OP_LIST] at hst hls
                    omega
                  · exact ih _ p u hmem hls hrdy
              · split at hmem
                · simp only [List.mem_cons, Prod.mk.injEq] at hmem
                  rcases hmem with ⟨_, hu⟩ | hmem
                  · exact hu
                  · exact ih _ p u hmem hls hrdy
                · next hnl =>
                  simp only [List.mem_cons, Prod.mk.injEq] at hmem
                  rcases hmem with ⟨hp, _⟩ | hmem
                  · subst hp
                    exact absurd hls hnl
                  · exact ih _ p u hmem hls hrdy

/-- C7.  For every LIST operation passing the parameter precheck,
`process_list` completes as a pure computation over the in-memory maps (no
device I/O; the loop conjunct shows a reached LIST op is processed and
dequeued in the same pass, never deferred), and its result buffer is a stable
prefix of length `op->version` followed by an unstable suffix, with `retval`
the total count: the part after `version` is exactly the non-delete,
non-stable dirty entries matching the inode-range and placement-group
filters, in order; every element of the stable prefix has a nonzero version,
matches the placement-group filter, and its oid comes from a clean-db entry
in range or a stable dirty entry in range (the merge sources). -/
theorem process_list_output_spec (cfg : ListCfg) (clean : List (Oid × CEntry))
    (dirty : List (OV × DEntry)) (buf : List OV) (ver rv : Nat)
    (h : process_list cfg clean dirty = some (buf, ver, rv)) :
    rv = buf.length ∧ ver ≤ buf.length ∧
    buf.drop ver = unstable_spec cfg dirty ∧
    (∀ x ∈ buf.take ver, x.version ≠ 0 ∧ pgOk cfg x.oid = true ∧
      x.oid ∈ stable_oid_sources cfg clean dirty) ∧
    (∀ (hw : Nat) (q : List QOp) (p : QOp) (u : Outcome),
      (p, u) ∈ loop_pass hw q → (p.opcode == BS_OP_LIST) = true →
      p.wait = WaitSt.ready → u = Outcome.attempted 2) := by
  unfold process_list at h
  split at h
  · exact absurd h (by simp)
  · simp only [Option.some.injEq, Prod.mk.injEq] at h
    obtain ⟨hbuf, hver, hrv⟩ := h
    subst hbuf
    subst hver
    subst hrv
    refine ⟨(List.length_append _ _).symm, by simp, ?_, ?_,
      fun hw q p u hm => loop_pass_list_sync q hw p u hm⟩
    · rw [List.drop_left, foldl_dirty_snd]
      simp [unstable_spec]
    · intro x hx
      rw [List.take_left] at hx
      have hx2 := List.mem_filter.mp hx
      have hver0 : x.version ≠ 0 := by
        have := hx2.2
        simpa using this
      refine ⟨hver0, ?_⟩
      have hx1 := hx2.1
      rw [foldl_dirty_fst] at hx1
      refine stable_fold_pres _ (fun o => pgOk cfg o = true ∧
        o ∈ stable_oid_sources cfg clean dirty) (dirty_pass cfg dirty) _
        ?_ ?_ x hx1
      · intro e he hdel hstab
        constructor
        · exact (List.mem_filter.mp he).2
        · refine List.mem_append.mpr (Or.inr ?_)
          refine List.mem_map.mpr ⟨e, ?_, rfl⟩
          refine List.mem_filter.mpr ⟨he, ?_⟩
          simp [hdel, hstab]
      · intro y hy
        rcases List.mem_map.mp hy with ⟨e, he, hey⟩
        constructor
        · rw [← hey]
          exact (List.mem_filter.mp he).2
        · refine List.mem_append.mpr (Or.inl ?_)
          refine List.mem_map.mpr ⟨e, he, ?_⟩
          rw [← hey]


theorem pairwise_getD_oid : ∀ (l : List Oid),
    List.Pairwise (fun a b => oidLtB a b = true) l →
    ∀ i j, i < j → j < l.length →
    oidLtB (l.getD i ⟨0, 0⟩) (l.getD j ⟨0, 0⟩) = true := by
  intro l
  induction l with
  | nil => intro _ i j _ hj; simp at hj
  | cons hd tl ih =>
    intro hp i j hij hj
    rcases List.pairwise_cons.mp hp with ⟨hhd, htl⟩
    cases i with
    | zero =>
      cases j with
      | zero => omega
      | succ j2 =>
        exact hhd _ (getD_mem tl j2 ⟨0, 0⟩ (by simpa using hj))
    | succ i2 =>
      cases j with
      | zero => omega
      | succ j2 => exact ih htl i2 j2 (by omega) (by simpa using hj)

theorem getD_map_fst : ∀ (l : List (Oid × CEntry)) (i : Nat),
    i < l.length →
    (l.map (fun e => e.1)).getD i ⟨0, 0⟩ = (l.getD i (⟨0, 0⟩, ⟨0⟩)).1 := by
  intro l
  induction l with
  | nil => intro i h; simp at h
  | cons hd tl ih =>
    intro i h
    cases i with
    | zero => rfl
    | succ j => exact ih j (by simpa using h)

theorem replace_stable_mem_target : ∀ (f : Nat) (oid : Oid) (v s e : Nat)
    (l : List OV) (x : OV), x ∈ (replace_stable f oid v s e l).1 →
    x ∈ l ∨ x = ⟨oid, v⟩ := by
  intro f
  induction f with
  | zero => intro oid v s e l x h; exact Or.inl h
  | succ f ih =>
    intro oid v s e l x h
    rw [replace_stable] at h
    split at h
    · split at h
      · exact ih oid v s _ l x h
      · split at h
        · exact ih oid v _ e l x h
        · next hlt1 hlt2 =>
          simp only at h
          have hxe : (l.getD (s + (e - s) / 2) dummyOV).oid = oid :=
            oid_eq_of_not_lt _ _ (eq_false_of_ne_true hlt2)
              (eq_false_of_ne_true hlt1)
          rcases mem_of_mem_set _ _ _ _ h with h | h
          · rw [hxe] at h
            exact Or.inr h
          · exact Or.inl h
    · exact Or.inl h

theorem plinv_of_oids_eq (cOids : List Oid) (stable stable2 : List OV)
    (rest rest2 : List (OV × DEntry))
    (hleneq : stable2.length = stable.length)
    (hoids : ∀ i, (stable2.getD i dummyOV).oid = (stable.getD i dummyOV).oid)
    (hsub : ∀ y ∈ rest2, y ∈ rest)
    (inv : PLInv cOids stable rest) : PLInv cOids stable2 rest2 := by
  refine ⟨hleneq ▸ inv.hlen, ?_, ?_, ?_, ?_⟩
  · intro i hi
    rw [hoids]
    exact inv.hclean i hi
  · intro i j h1 h2 h3
    rw [hoids, hoids]
    exact inv.happ_sorted i j h1 h2 (by omega)
  · intro i h1 h2 j hj
    rw [hoids]
    exact inv.happ_new i h1 (by omega) j hj
  · intro i h1 h2 y hy
    rw [hoids]
    exact inv.happ_le i h1 (by omega) y (hsub y hy)

theorem plinv_step (cOids : List Oid) (csorted : oids_sorted cOids)
    (stable : List OV) (e : OV × DEntry) (rest : List (OV × DEntry))
    (hrest : ∀ y ∈ rest, ovLtB e.1 y.1 = true)
    (inv : PLInv cOids stable (e :: rest)) :
    PLInv cOids (stable_step cOids.length stable e) rest := by
  have hsub : ∀ y ∈ rest, y ∈ e :: rest := fun y hy => List.mem_cons_of_mem e hy
  unfold stable_step
  split
  · split
    · exact plinv_of_oids_eq _ _ _ _ _ (replace_stable_length _ _ _ _ _ _)
        (fun i => replace_stable_oids _ _ _ _ _ _ i) hsub inv
    · exact plinv_of_oids_eq _ _ _ _ _ (replace_stable_length _ _ _ _ _ _)
        (fun i => replace_stable_oids _ _ _ _ _ _ i) hsub inv
  · split
    · split
      · exact plinv_of_oids_eq _ _ _ _ _ (replace_stable_length _ _ _ _ _ _)
          (fun i => replace_stable_oids _ _ _ _ _ _ i) hsub inv
      · split
        · next hguard =>
          simp only [Bool.and_eq_true, decide_eq_true_eq] at hguard
          refine plinv_of_oids_eq _ _ _ _ _ (by simp) ?_ hsub inv
          intro i
          by_cases hi : i = stable.length - 1
          · subst hi
            rw [getD_set_self _ _ _ _ (by omega)]
          · rw [getD_set_ne _ _ _ _ _ hi]
        · next hfound hguard =>
          -- append branch
          have hc := inv.hlen
          have hcs : ∀ i1 j1, i1 < j1 → j1 < cOids.length →
              oidLtB (stable.getD i1 dummyOV).oid
                (stable.getD j1 dummyOV).oid = true := by
            intro i1 j1 h1 h2
            rw [inv.hclean i1 (by omega), inv.hclean j1 h2]
            exact csorted i1 j1 h1 h2
          unfold replace_stable_run at hfound
          have hK1 : ∀ j, j < cOids.length →
              cOids.getD j ⟨0, 0⟩ ≠ e.1.oid := by
            intro j hj heq
            rw [replace_stable_found (cOids.length - 0) e.1.oid e.1.version 0
              cOids.length stable (by omega)
              (fun i1 j1 _ h1 h2 => hcs i1 j1 h1 h2) j (by omega) hj
              (by rw [inv.hclean j hj]; exact heq)] at hfound
            simp at hfound
          have hK2 : ∀ i, cOids.length ≤ i → i < stable.length →
              oidLtB (stable.getD i dummyOV).oid e.1.oid = true := by
            intro i h1 h2
            have hle := inv.happ_le i h1 h2 e (List.mem_cons_self e rest)
            simp only [oidLeB, Bool.not_eq_true'] at hle
            cases hlt : oidLtB (stable.getD i dummyOV).oid e.1.oid
            · exfalso
              have heqo : (stable.getD i dummyOV).oid = e.1.oid :=
                oid_eq_of_not_lt _ _ hlt hle
              by_cases hend : i = stable.length - 1
              · apply hguard
                subst hend
                simp only [Bool.and_eq_true, decide_eq_true_eq, beq_iff_eq]
                exact ⟨by omega, heqo⟩
              · have hlt2 := inv.happ_sorted i (stable.length - 1) h1
                  (by omega) (by omega)
                have hle2 := inv.happ_le (stable.length - 1) (by omega)
                  (by omega) e (List.mem_cons_self e rest)
                simp only [oidLeB, Bool.not_eq_true'] at hle2
                rw [heqo] at hlt2
                rw [hlt2] at hle2
                simp at hle2
            · rfl
          refine ⟨by simp; omega, ?_, ?_, ?_, ?_⟩
          · intro i hi
            rw [getD_append_left _ _ _ _ (by omega)]
            exact inv.hclean i hi
          · intro i j h1 h2 h3
            simp only [List.length_append, List.length_singleton] at h3
            by_cases hj : j = stable.length
            · subst hj
              rw [getD_append_self, getD_append_left _ _ _ _ (by omega)]
              exact hK2 i h1 (by omega)
            · rw [getD_append_left _ _ _ _ (by omega),
                getD_append_left _ _ _ _ (by omega)]
              exact inv.happ_sorted i j h1 h2 (by omega)
          · intro i h1 h2 j hj
            simp only [List.length_append, List.length_singleton] at h2
            by_cases hi : i = stable.length
            · subst hi
              rw [getD_append_self]
              exact fun heq => hK1 j hj heq.symm
            · rw [getD_append_left _ _ _ _ (by omega)]
              exact inv.happ_new i h1 (by omega) j hj
          · intro i h1 h2 y hy
            simp only [List.length_append, List.length_singleton] at h2
            by_cases hi : i = stable.length
            · subst hi
              rw [getD_append_self]
              exact oidLeB_of_ovLtB _ _ (hrest y hy)
            · rw [getD_append_left _ _ _ _ (by omega)]
              exact inv.happ_le i h1 (by omega) y (hsub y hy)
    · exact plinv_of_oids_eq _ _ _ _ _ rfl (fun i => rfl) hsub inv

theorem stable_step_del_zero (cOids : List Oid) (csorted : oids_sorted cOids)
    (stable : List OV) (e : OV × DEntry) (rest : List (OV × DEntry))
    (inv : PLInv cOids stable (e :: rest)) (hdel : e.2.del = true) :
    ∀ x ∈ stable_step cOids.length stable e, x.oid = e.1.oid →
    x.version = 0 := by
  intro x hx hxo
  have hc := inv.hlen
  have hcs : ∀ i1 j1, i1 < j1 → j1 < cOids.length →
      oidLtB (stable.getD i1 dummyOV).oid (stable.getD j1 dummyOV).oid
        = true := by
    intro i1 j1 h1 h2
    rw [inv.hclean i1 (by omega), inv.hclean j1 h2]
    exact csorted i1 j1 h1 h2
  unfold stable_step at hx
  rw [if_pos hdel] at hx
  unfold replace_stable_run at hx
  by_cases hclean : ∃ j, j < cOids.length ∧
      (stable.getD j dummyOV).oid = e.1.oid
  · -- found in the clean region
    rcases hclean with ⟨j, hj, hjoid⟩
    rw [replace_stable_found (cOids.length - 0) e.1.oid 0 0 cOids.length
      stable (by omega) (fun i1 j1 _ h1 h2 => hcs i1 j1 h1 h2)
      j (by omega) hj hjoid] at hx
    simp only [if_pos] at hx
    rcases (mem_iff_getD _ x dummyOV).mp hx with ⟨i, hi, hgi⟩
    rw [List.length_set] at hi
    by_cases hij : i = j
    · subst hij
      rw [getD_set_self _ _ _ _ hi] at hgi
      rw [← hgi]
    · rw [getD_set_ne _ _ _ _ _ hij] at hgi
      exfalso
      by_cases hic : i < cOids.length
      · -- two distinct clean entries with the same oid: clean region sorted
        rcases Nat.lt_or_ge i j with hlt | hge
        · have := hcs i j hlt hj
          rw [hgi, hxo, hjoid, oidLtB_irrefl] at this
          simp at this
        · have hlt : j < i := by omega
          have := hcs j i hlt hic
          rw [hgi, hxo, hjoid, oidLtB_irrefl] at this
          simp at this
      · -- an append-region entry cannot carry a clean oid
        have := inv.happ_new i (by omega) hi j hj
        rw [hgi, hxo, ← hjoid] at this
        exact this (inv.hclean j hj)
  · -- not in the clean region
    push_neg at hclean
    rw [replace_stable_not_found (cOids.length - 0) e.1.oid 0 0 cOids.length
      stable (fun i h1 h2 => hclean i h2)] at hx
    simp only [Bool.false_eq_true, if_false] at hx
    by_cases happ : ∃ j, cOids.length ≤ j ∧ j < stable.length ∧
        (stable.getD j dummyOV).oid = e.1.oid
    · rcases happ with ⟨j, hj1, hj2, hjoid⟩
      rw [replace_stable_found (stable.length - cOids.length) e.1.oid 0
        cOids.length stable.length stable (by omega)
        (fun i1 j1 h0 h1 h2 => inv.happ_sorted i1 j1 h0 h1 h2)
        j hj1 hj2 hjoid] at hx
      simp only at hx
      rcases (mem_iff_getD _ x dummyOV).mp hx with ⟨i, hi, hgi⟩
      rw [List.length_set] at hi
      by_cases hij : i = j
      · subst hij
        rw [getD_set_self _ _ _ _ hi] at hgi
        rw [← hgi]
      · rw [getD_set_ne _ _ _ _ _ hij] at hgi
        exfalso
        by_cases hic : i < cOids.length
        · apply hclean i hic
          rw [hgi, hxo]
        · rcases Nat.lt_or_ge i j with hlt | hge
          · have := inv.happ_sorted i j (by omega) hlt hj2
            rw [hgi, hxo, hjoid, oidLtB_irrefl] at this
            simp at this
          · have hlt : j < i := by omega
            have := inv.happ_sorted j i hj1 hlt hi
            rw [hgi, hxo, hjoid, oidLtB_irrefl] at this
            simp at this
    · push_neg at happ
      rw [replace_stable_not_found (stable.length - cOids.length) e.1.oid 0
        cOids.length stable.length stable
        (fun i h1 h2 => happ i h1 h2)] at hx
      simp only at hx
      exfalso
      rcases (mem_iff_getD _ x dummyOV).mp hx with ⟨i, hi, hgi⟩
      by_cases hic : i < cOids.length
      · apply hclean i hic
        rw [hgi, hxo]
      · apply happ i (by omega) hi
        rw [hgi, hxo]

theorem stable_step_protect (c : Nat) (stable : List OV) (e : OV × DEntry)
    (o : Oid) (hJ : ∀ x ∈ stable, x.oid = o → x.version = 0)
    (he : e.1.oid = o → e.2.del = true ∨ e.2.stable = false) :
    ∀ x ∈ stable_step c stable e, x.oid = o → x.version = 0 := by
  intro x hx hxo
  unfold stable_step at hx
  split at hx
  · split at hx
    · rcases replace_stable_mem_target _ _ _ _ _ _ _ hx with h | h
      · exact hJ x h hxo
      · rw [h]
    · rcases replace_stable_mem_target _ _ _ _ _ _ _ hx with h | h
      · exact hJ x h hxo
      · rw [h]
  · split at hx
    · next hdel hstab =>
      have hne : e.1.oid ≠ o := by
        intro heq
        rcases he heq with h | h
        · exact hdel h
        · rw [hstab] at h; simp at h
      split at hx
      · rcases replace_stable_mem_target _ _ _ _ _ _ _ hx with h | h
        · exact hJ x h hxo
        · rw [h] at hxo
          exact absurd hxo hne
      · split at hx
        · next hguard =>
          simp only [Bool.and_eq_true, decide_eq_true_eq, beq_iff_eq]
            at hguard
          rcases mem_of_mem_set _ _ _ _ hx with h | h
          · rw [h] at hxo
            simp only at hxo
            rw [hguard.2] at hxo
            exact absurd hxo hne
          · exact hJ x h hxo
        · rcases List.mem_append.mp hx with h | h
          · exact hJ x h hxo
          · rw [List.mem_singleton.mp h] at hxo
            exact absurd hxo hne
    · exact hJ x hx hxo

theorem plinv_fold (cOids : List Oid) (csorted : oids_sorted cOids) :
    ∀ (l rest2 : List (OV × DEntry)) (stable : List OV),
    List.Pairwise (fun a b => ovLtB a.1 b.1 = true) (l ++ rest2) →
    PLInv cOids stable (l ++ rest2) →
    PLInv cOids (l.foldl (stable_step cOids.length) stable) rest2 := by
  intro l
  induction l with
  | nil => intro rest2 stable _ inv; exact inv
  | cons e l2 ih =>
    intro rest2 stable hpw inv
    rcases List.pairwise_cons.mp hpw with ⟨hhd, htl⟩
    exact ih rest2 (stable_step cOids.length stable e) htl
      (plinv_step cOids csorted stable e (l2 ++ rest2)
        (fun y hy => hhd y hy) inv)

theorem protect_fold (c : Nat) (o : Oid) :
    ∀ (l : List (OV × DEntry)) (stable : List OV),
    (∀ x ∈ stable, x.oid = o → x.version = 0) →
    (∀ e ∈ l, e.1.oid = o → (e.2.del = true ∨ e.2.stable = false)) →
    ∀ x ∈ l.foldl (stable_step c) stable, x.oid = o → x.version = 0 := by
  intro l
  induction l with
  | nil => intro stable hJ _; exact hJ
  | cons e l2 ih =>
    intro stable hJ hl
    exact ih (stable_step c stable e)
      (stable_step_protect c stable e o hJ (hl e (List.mem_cons_self e l2)))
      (fun y hy => hl y (List.mem_cons_of_mem e hy))

/-- C9 (amended).  For every LIST operation over sorted maps: an object
whose latest stable-or-delete dirty entry within the filtered range is a
delete never appears in the stable part of the returned list — the code
zeroes the matching stable entry's version (searching first the clean part,
then the dirty-stable part) and drops zero-version entries before computing
the stable count.  (The original claim, quantifying over any delete entry, is
refuted by `process_list_delete_then_stable_reappears`: a later stable dirty
entry for the same object re-inserts it.)  The hypothesis `hafter` states
that no dirty entry for `o` after the delete is a stable non-delete entry. -/
theorem process_list_delete_last_excluded
    (cfg : ListCfg) (clean : List (Oid × CEntry)) (dirty : List (OV × DEntry))
    (buf : List OV) (ver rv : Nat) (o : Oid) (vd : Nat) (de : DEntry)
    (d1 d2 : List (OV × DEntry))
    (hclean_sorted : List.Pairwise (fun a b => oidLtB a.1 b.1 = true) clean)
    (hdirty_sorted : List.Pairwise (fun a b => ovLtB a.1 b.1 = true) dirty)
    (hres : process_list cfg clean dirty = some (buf, ver, rv))
    (hsplit : dirty_pass cfg dirty = d1 ++ (⟨⟨o, vd⟩, de⟩ : OV × DEntry) :: d2)
    (hdel : de.del = true)
    (hafter : ∀ e ∈ d2, e.1.oid = o → (e.2.del = true ∨ e.2.stable = false)) :
    ∀ x ∈ buf.take ver, x.oid ≠ o := by
  unfold process_list at hres
  split at hres
  · exact absurd hres (by simp)
  · simp only [Option.some.injEq, Prod.mk.injEq] at hres
    obtain ⟨hbuf, hver, hrv⟩ := hres
    subst hbuf
    subst hver
    intro x hx
    rw [List.take_left] at hx
    rcases List.mem_filter.mp hx with ⟨hx1, hxv⟩
    intro hxo
    have hxv2 : x.version ≠ 0 := by simpa using hxv
    apply hxv2
    rw [foldl_dirty_fst] at hx1
    have hSc : ((clean_pass cfg clean).map
        (fun e => (⟨e.1, e.2.version⟩ : OV))).length =
        ((clean_pass cfg clean).map (fun e => e.1)).length := by
      simp
    rw [hSc, hsplit, List.foldl_append, List.foldl_cons] at hx1
    have hcpl : ((clean_pass cfg clean).map (fun e => e.1)).length =
        (clean_pass cfg clean).length := by simp
    have hS0l : ((clean_pass cfg clean).map
        (fun e => (⟨e.1, e.2.version⟩ : OV))).length =
        (clean_pass cfg clean).length := by simp
    have csorted : oids_sorted ((clean_pass cfg clean).map (fun e => e.1)) := by
      intro i j hij hj
      refine pairwise_getD_oid _ ?_ i j hij hj
      refine List.Pairwise.map _ (fun a b h => h) ?_
      exact List.Pairwise.sublist
        ((List.filter_sublist _).trans (List.filter_sublist _)) hclean_sorted
    have base : ∀ rest0, PLInv ((clean_pass cfg clean).map (fun e => e.1))
        ((clean_pass cfg clean).map (fun e => (⟨e.1, e.2.version⟩ : OV)))
        rest0 := by
      intro rest0
      refine ⟨by rw [hcpl, hS0l], ?_, ?_, ?_, ?_⟩
      · intro i hi
        rw [hcpl] at hi
        rw [getD_map_ce _ _ hi, getD_map_fst _ _ hi]
      · intro i j h1 h2 h3
        rw [hcpl] at h1
        rw [hS0l] at h3
        omega
      · intro i h1 h2 j hj
        rw [hcpl] at h1
        rw [hS0l] at h2
        omega
      · intro i h1 h2 y hy
        rw [hcpl] at h1
        rw [hS0l] at h2
        omega
    have hpw : List.Pairwise (fun a b => ovLtB a.1 b.1 = true)
        (d1 ++ (⟨⟨o, vd⟩, de⟩ : OV × DEntry) :: d2) := by
      rw [← hsplit]
      exact List.Pairwise.sublist
        ((List.filter_sublist _).trans (List.filter_sublist _)) hdirty_sorted
    have midInv := plinv_fold _ csorted d1
      ((⟨⟨o, vd⟩, de⟩ : OV × DEntry) :: d2) _ hpw (base _)
    have hJ0 := stable_step_del_zero _ csorted _ (⟨⟨o, vd⟩, de⟩ : OV × DEntry)
      d2 midInv hdel
    exact protect_fold _ o d2 _ (fun y hy hyo => hJ0 y hy hyo) hafter x hx1 hxo

/-- C7 (witness): on a clean db `{oidA ↦ 5}` and a dirty db with one unstable
entry for `oidC`, LIST returns buffer `[⟨oidA,5⟩, ⟨oidC,4⟩]` with stable
count 1 and retval 2; the theorem's conclusions are instantiated there. -/
theorem process_list_output_spec_witness :
    2 = ([⟨oidA, 5⟩, ⟨oidC, 4⟩] : List OV).length ∧
    ([⟨oidA, 5⟩, ⟨oidC, 4⟩] : List OV).drop 1 = unstable_spec cfgAll dirtyW := by
  have h := process_list_output_spec cfgAll cleanW dirtyW
    [⟨oidA, 5⟩, ⟨oidC, 4⟩] 1 2 (by decide)
  exact ⟨h.1, h.2.2.1⟩

/-- C9 (counterexample).  The claim as stated — an object with *any* delete
dirty entry in the filtered range never appears in the stable part — is
false: with an empty clean db and, for `oidA`, a delete at version 2 followed
by a stable write at version 3, `oidA` appears in the stable part (the later
stable entry is appended after the delete zeroed nothing). -/
theorem process_list_delete_then_stable_reappears :
    process_list cfgAll [] dirtyDelThenStable = some ([⟨oidA, 3⟩], 1, 1) ∧
    (⟨⟨oidA, 2⟩, ⟨true, true⟩⟩ : OV × DEntry) ∈
      dirty_pass cfgAll dirtyDelThenStable ∧
    oidA ∈ (([⟨oidA, 3⟩] : List OV).take 1).map (fun x => x.oid) := by decide

/-- C9 (witness): with clean db `{oidA ↦ 5, oidB ↦ 6}` and a single delete of
`oidB`, the stable part is `[⟨oidA,5⟩]` and the theorem instantiated at its
element yields `oidA ≠ oidB`. -/
theorem process_list_delete_last_excluded_witness :
    (⟨oidA, 5⟩ : OV).oid ≠ oidB :=
  process_list_delete_last_excluded cfgAll cleanDel dirtyDel
    [⟨oidA, 5⟩] 1 1 oidB 8 ⟨true, true⟩ [] []
    (by decide) (by decide) (by decide) (by decide) (by decide)
    (fun e he => absurd he (List.not_mem_nil e))
    ⟨oidA, 5⟩ (by decide)
